import Mathlib

/-!
Shallow embedding of the cdf directory scanner (Go), Unix path conventions
(separator '/').  Filesystem trees are modelled as a mutual inductive of
entries; `filepath.WalkDir` becomes a structural walk threading explicit
state.  Cancellation of a `context.Context` is modelled by a monotone
clock of observation points (`Ctx.cancelAt` is the first observation index
at which the context reads as cancelled) and Go's randomized `select`
between a ready channel send and a ready `ctx.Done()` is resolved by the
oracle `Ctx.oracle` (true = take the send case).
-/

set_option linter.unusedVariables false

/-- Errors relevant to the scanner: `context.Canceled`, a failed `os.Lstat`
of the walk root, and a failed `os.ReadDir` of some directory. -/
inductive GoErr where
  | canceled
  | lstatErr
  | readDirErr
deriving DecidableEq

/-- Result of a `fs.WalkDirFunc` callback: `nil`, `filepath.SkipDir`, or a
genuine error value. -/
inductive WalkRet where
  | ok
  | skipDir
  | fail (e : GoErr)
deriving DecidableEq

/-- `filepath.WalkDir`'s final translation of the walk outcome: SkipDir (and
nil) become a nil error. -/
def WalkRet.toErr : WalkRet → Option GoErr
  | .ok => none
  | .skipDir => none
  | .fail e => some e

/-- What a callback can see of an `fs.DirEntry`: its base name and whether
it is a directory. -/
structure EntryInfo where
  name : String
  isDir : Bool
deriving DecidableEq

mutual
/-- A filesystem entry: a file, or a directory with a base name, a flag
saying whether `os.ReadDir` fails on it, and its (sorted) children. -/
inductive Entry where
  | file (name : String)
  | dir (name : String) (readErr : Bool) (children : EntryList)
/-- Children list of a directory (a plain list, kept as a mutual inductive
so that the walk functions are structurally recursive). -/
inductive EntryList where
  | nil
  | cons (e : Entry) (rest : EntryList)
end

/-- Base name of an entry (`fs.DirEntry.Name`). -/
def Entry.name : Entry → String
  | .file n => n
  | .dir n _ _ => n

/-- `fs.DirEntry.IsDir`. -/
def Entry.isDir : Entry → Bool
  | .file _ => false
  | .dir _ _ _ => true

/-- The `EntryInfo` view of an entry. -/
def Entry.info (e : Entry) : EntryInfo := ⟨e.name, e.isDir⟩

/-- `strings.HasPrefix s pre` (byte-level prefix, modelled on characters). -/
def goHasPrefix (s pre : String) : Bool := pre.data.isPrefixOf s.data

/-- `filepath.Join p n` for a clean absolute `p` and a plain name `n`:
only the filesystem root `/` already ends in a separator. -/
def joinPath (p n : String) : String := if p = "/" then p ++ n else p ++ "/" ++ n

/-- Split a character list at `/` (pieces never contain `/`). -/
def splitSepChars : List Char → List (List Char)
  | [] => [[]]
  | c :: cs =>
    if c = '/' then [] :: splitSepChars cs
    else
      match splitSepChars cs with
      | [] => [[c]]
      | p :: ps => (c :: p) :: ps

/-- The separator-delimited components of a clean path (empty pieces
dropped, so `/home/user` has components `[home, user]`). -/
def pathComponents (s : String) : List String :=
  ((splitSepChars s.data).map (fun cs => String.mk cs)).filter (fun c => c ≠ "")

/-- `filepath.IsAbs` on Unix. -/
def isAbs (s : String) : Bool := goHasPrefix s "/"

/-- Length of the longest common prefix of two component lists. -/
def commonPrefixLen : List String → List String → Nat
  | a :: as, b :: bs => if a = b then commonPrefixLen as bs + 1 else 0
  | _, _ => 0

/-- `filepath.Rel base targ` for clean paths, returned as the component
list of the relative path (`some []` models the result `"."`).  Mixing an
absolute and a relative path fails, as does a base whose remainder after
the common prefix is `..` (per the Go source of `filepath.Rel`). -/
def goRel (base targ : String) : Option (List String) :=
  if base = targ then some []
  else if isAbs base ≠ isAbs targ then none
  else
    let b := pathComponents base
    let t := pathComponents targ
    let n := commonPrefixLen b t
    let brest := b.drop n
    if brest = [".."] then none
    else some (List.replicate brest.length ".." ++ t.drop n)

/-- Render a relative component list back to the string `filepath.Rel`
returns (`.` for the empty list). -/
def joinComponents : List String → String
  | [] => "."
  | [c] => c
  | c :: rest => c ++ "/" ++ joinComponents rest

/-- `strings.Count s "/"` (the separator is a single character, so this is
a character count). -/
def countSep (s : String) : Nat := s.data.countP (fun ch => ch == '/')

/-- The fixed ignore list of `scanner.go`. -/
def ignorePatterns : List String :=
  [".git", "node_modules", "target", ".cache", "vendor",
   "__pycache__", ".pytest_cache", "dist", "build",
   ".terraform", ".vscode", ".idea"]

/-- `shouldIgnore` of `scanner.go`: exact membership in `ignorePatterns`. -/
def shouldIgnore (name : String) : Bool :=
  ignorePatterns.any (fun pattern => name == pattern)

/-- `isWithinDepth` of `scanner.go`: relative path from root to path, then
`strings.Count(relPath, "/") <= maxDepth`; a failing `filepath.Rel` yields
false. -/
def isWithinDepth (path root : String) (maxDepth : Int) : Bool :=
  match goRel root path with
  | none => false
  | some rel => decide ((countSep (joinComponents rel) : Int) ≤ maxDepth)

section Walk

variable {σ : Type} (fn : σ → String → EntryInfo → Option GoErr → σ × WalkRet)

mutual
/-- `filepath.walkDir path d fn` threading explicit callback state: call the
callback, then on a directory read the children (reporting a `ReadDir`
failure through a second callback call) and recurse. -/
def walkEntryG (s : σ) (path : String) : Entry → σ × WalkRet
  | .file n => fn s path ⟨n, false⟩ none
  | .dir n readErr children =>
    match fn s path ⟨n, true⟩ none with
    | (s1, .skipDir) => (s1, .ok)
    | (s1, .fail er) => (s1, .fail er)
    | (s1, .ok) =>
      if readErr then
        match fn s1 path ⟨n, true⟩ (some .readDirErr) with
        | (s2, .ok) => walkChildrenG s2 path children
        | (s2, .skipDir) => (s2, .ok)
        | (s2, .fail er) => (s2, .fail er)
      else walkChildrenG s1 path children

/-- The loop of `filepath.walkDir` over the children of a directory:
a child returning SkipDir breaks the loop, an error aborts the walk. -/
def walkChildrenG (s : σ) (parent : String) : EntryList → σ × WalkRet
  | .nil => (s, .ok)
  | .cons c rest =>
    match walkEntryG s (joinPath parent c.name) c with
    | (s', .ok) => walkChildrenG s' parent rest
    | (s', .skipDir) => (s', .ok)
    | (s', .fail er) => (s', .fail er)
end

/-- `filepath.WalkDir root fn`: `none` models a root whose `Lstat` fails
(the callback is invoked once with the error); SkipDir at top level maps
to a nil error. -/
def goWalkDir (s : σ) (root : String) (fs : Option Entry) : σ × Option GoErr :=
  match fs with
  | none =>
    match fn s root ⟨"", false⟩ (some .lstatErr) with
    | (s1, r1) => (s1, r1.toErr)
  | some e =>
    match walkEntryG fn s root e with
    | (s1, r1) => (s1, r1.toErr)

end Walk

/-- The callback of `scanDirectories` (scanner.go lines 18-41). -/
def scanFn (root : String) (maxDepth : Int) (useIgnorePatterns : Bool)
    (dirs : List String) (path : String) (d : EntryInfo) (err : Option GoErr) :
    List String × WalkRet :=
  if err.isSome then (dirs, .ok)
  else if !d.isDir then (dirs, .ok)
  else if path = root then (dirs, .ok)
  else if !(isWithinDepth path root maxDepth) then (dirs, .skipDir)
  else if useIgnorePatterns && shouldIgnore d.name then (dirs, .skipDir)
  else (dirs ++ [path], .ok)

/-- `scanDirectories` of scanner.go: the synchronous walker. -/
def scanDirectories (fs : Option Entry) (root : String) (maxDepth : Int)
    (useIgnorePatterns : Bool) : List String × Option GoErr :=
  goWalkDir (scanFn root maxDepth useIgnorePatterns) [] root fs

/-- `DirBatch`: a batch of discovered directories. -/
structure DirBatch where
  Directories : List String
  Done : Bool
  Err : Option GoErr
deriving DecidableEq

/-- `ScanConfig`: configuration of a streaming scan. -/
structure ScanConfig where
  Root : String
  MaxDepth : Int
  UseIgnorePatterns : Bool
  InitialBatchSize : Int
  MaxBatchSize : Int

/-- A `context.Context` together with a resolution of Go's randomized
`select`: the context reads as cancelled from observation index `cancelAt`
onward, and when a send and `ctx.Done()` are simultaneously ready,
`oracle n` (at observation index `n`) is true iff the send case wins. -/
structure Ctx where
  cancelAt : Option Nat
  oracle : Nat → Bool

/-- State of the emitter goroutine of `scanWithConfigCtx` /
`scanWithConfigCtxExcluding`: the accumulation buffer, the adaptive
threshold, the running count, the batches delivered so far, and the
observation clock. -/
structure EmitState where
  batch : List String
  currentBatchSize : Int
  dirCount : Int
  sent : List DirBatch
  clock : Nat

/-- Whether the context reads as cancelled at observation index `n`. -/
def poll (c : Ctx) (n : Nat) : Bool :=
  match c.cancelAt with
  | none => false
  | some k => decide (k ≤ n)

/-- One observation point (a `select` on `ctx.Done()` or a `ctx.Err()`
read): report the current cancellation state and advance the clock. -/
def observe (c : Ctx) (s : EmitState) : Bool × EmitState :=
  (poll c s.clock, { s with clock := s.clock + 1 })

/-- The subtree-exclusion test of `scanWithConfigCtxExcluding` (part_001
line 124); `none` models the plain `scanWithConfigCtx`, which has no such
check. -/
def excludeCheck (exclude : Option String) (path : String) : Bool :=
  match exclude with
  | some ex => !(ex == "") && (path == ex || goHasPrefix path (ex ++ "/"))
  | none => false

/-- The buffering block of the emit callbacks (part_001 lines 136-162 and
238-264): append the path, bump the running count, and when the buffer
reaches the current threshold deliver a copy through the flush `select`,
apply the adaptive doubling (count > 500, capped at `MaxBatchSize`), and
reset the buffer. -/
def emitTake (c : Ctx) (cfg : ScanConfig) (s1 : EmitState) (path : String) :
    EmitState × WalkRet :=
  let s2 : EmitState :=
    { s1 with batch := s1.batch ++ [path], dirCount := s1.dirCount + 1 }
  if (s2.batch.length : Int) ≥ s2.currentBatchSize then
    let p2 := observe c s2
    if p2.1 ∧ c.oracle s2.clock = false then (p2.2, .fail .canceled)
    else
      let s4 : EmitState :=
        { p2.2 with sent := p2.2.sent ++ [⟨p2.2.batch, false, none⟩] }
      let s5 : EmitState :=
        if s4.dirCount > 500 ∧ s4.currentBatchSize < cfg.MaxBatchSize then
          { s4 with currentBatchSize := min (s4.currentBatchSize * 2) cfg.MaxBatchSize }
        else s4
      ({ s5 with batch := [] }, .ok)
  else (s2, .ok)

/-- The walk callback of `scanWithConfigCtx` (exclude = none) and of
`scanWithConfigCtxExcluding` (exclude = some _), including the
`walkDirContext` wrapper's cancellation check, the callback's own check,
the guard chain, and (via `emitTake`) the batching block. -/
def emitFn (c : Ctx) (cfg : ScanConfig) (exclude : Option String)
    (s : EmitState) (path : String) (d : EntryInfo) (err : Option GoErr) :
    EmitState × WalkRet :=
  let p0 := observe c s
  if p0.1 then (p0.2, .fail .canceled)
  else
    let p1 := observe c p0.2
    if p1.1 then (p1.2, .fail .canceled)
    else
      let s1 := p1.2
      if err.isSome then (s1, .ok)
      else if !d.isDir then (s1, .ok)
      else if path = cfg.Root then (s1, .ok)
      else if excludeCheck exclude path then (s1, .skipDir)
      else if !(isWithinDepth path cfg.Root cfg.MaxDepth) then (s1, .skipDir)
      else if cfg.UseIgnorePatterns && shouldIgnore d.name then (s1, .skipDir)
      else emitTake c cfg s1 path

/-- Initial emitter state for a configuration. -/
def initState (cfg : ScanConfig) : EmitState := ⟨[], cfg.InitialBatchSize, 0, [], 0⟩

/-- The goroutine body shared by `scanWithConfigCtx` and
`scanWithConfigCtxExcluding` (part_001 lines 89-194 and 196-296): walk,
override the error with `ctx.Err()` when cancelled, then deliver the final
done batch (its `select` may be lost to `ctx.Done()`). The returned list
is the full stream of batches the channel carries before it is closed. -/
def emitCore (c : Ctx) (fs : Option Entry) (cfg : ScanConfig)
    (exclude : Option String) : List DirBatch :=
  match goWalkDir (emitFn c cfg exclude) (initState cfg) cfg.Root fs with
  | (s1, werr) =>
    let pe := observe c s1
    let err := if pe.1 then some GoErr.canceled else werr
    let s2 := pe.2
    if s2.batch.length > 0 ∨ err.isSome then
      let pf := observe c s2
      if pf.1 ∧ c.oracle s2.clock = false then pf.2.sent
      else pf.2.sent ++ [⟨pf.2.batch, true, err⟩]
    else
      let pf := observe c s2
      if pf.1 ∧ c.oracle s2.clock = false then pf.2.sent
      else pf.2.sent ++ [⟨[], true, err⟩]

/-- `scanWithConfigCtx` of part_001. -/
def scanWithConfigCtx (c : Ctx) (fs : Option Entry) (config : ScanConfig) :
    List DirBatch :=
  emitCore c fs config none

/-- `scanWithConfigCtxExcluding` of part_001. -/
def scanWithConfigCtxExcluding (c : Ctx) (fs : Option Entry) (config : ScanConfig)
    (excludePath : String) : List DirBatch :=
  emitCore c fs config (some excludePath)

/-- `scanDirectoriesAsyncCtx` of part_001: cap the batch size at 200. -/
def scanDirectoriesAsyncCtx (c : Ctx) (fs : Option Entry) (root : String)
    (maxDepth : Int) (useIgnorePatterns : Bool) (batchSize : Int) : List DirBatch :=
  scanWithConfigCtx c fs ⟨root, maxDepth, useIgnorePatterns, batchSize, 200⟩

/-- `scanDirectoriesAsyncCtxExcluding` of part_001. -/
def scanDirectoriesAsyncCtxExcluding (c : Ctx) (fs : Option Entry) (root : String)
    (maxDepth : Int) (useIgnorePatterns : Bool) (batchSize : Int)
    (excludePath : String) : List DirBatch :=
  scanWithConfigCtxExcluding c fs ⟨root, maxDepth, useIgnorePatterns, batchSize, 200⟩ excludePath

/-- `context.Background()`: never cancelled (the oracle is then irrelevant). -/
def background : Ctx := ⟨none, fun _ => true⟩

/-- `scanDirectoriesAsync` of part_001: the streaming emitter with a
background context. -/
def scanDirectoriesAsync (fs : Option Entry) (root : String) (maxDepth : Int)
    (useIgnorePatterns : Bool) (batchSize : Int) : List DirBatch :=
  scanDirectoriesAsyncCtx background fs root maxDepth useIgnorePatterns batchSize

/-- The phase-1 relay loop of `scanTwoPhasesAsyncCtx` (part_000 lines
330-344): each relayed batch gets `Done` overridden to false, an error
batch stops the orchestrator, and a relay `select` lost to `ctx.Done()`
stops it too.  Returns (relayed batches, final clock, stopped early?). -/
def relayPhase1 (c : Ctx) : Nat → List DirBatch → List DirBatch × Nat × Bool
  | clock, [] => ([], clock, false)
  | clock, b :: rest =>
    if poll c clock ∧ c.oracle clock = false then ([], clock + 1, true)
    else
      let rb : DirBatch := ⟨b.Directories, false, b.Err⟩
      if b.Err.isSome then ([rb], clock + 1, true)
      else
        match relayPhase1 c (clock + 1) rest with
        | (out, ck, st) => (rb :: out, ck, st)

/-- The unmodified relay loop used for phase 2 and for the fallback path
of `scanTwoPhasesAsyncCtx`. -/
def relayPlain (c : Ctx) : Nat → List DirBatch → List DirBatch × Nat
  | clock, [] => ([], clock)
  | clock, b :: rest =>
    if poll c clock ∧ c.oracle clock = false then ([], clock + 1)
    else
      match relayPlain c (clock + 1) rest with
      | (out, ck) => (b :: out, ck)

/-- `scanTwoPhasesAsyncCtx` of part_000: phase 1 over the working
directory (done flag forced to false), then phase 2 from `/` excluding it;
`cwdRes = none` models a failing `os.Getwd` (single-phase fallback), and
`fsAt r` is the filesystem as seen from root `r`.  The inner emitters and
the orchestrator goroutine each observe the shared context along their own
observation sequence (`c1`, `c2`, `cO`). -/
def scanTwoPhasesAsyncCtx (cwdRes : Option String) (fsAt : String → Option Entry)
    (c1 c2 cO : Ctx) (startPath : String) (maxDepth : Int)
    (useIgnorePatterns : Bool) (batchSize : Int) : List DirBatch :=
  match cwdRes with
  | none =>
    (relayPlain cO 0
      (scanDirectoriesAsyncCtx c1 (fsAt startPath) startPath maxDepth useIgnorePatterns batchSize)).1
  | some cwd =>
    match relayPhase1 cO 0
        (scanDirectoriesAsyncCtx c1 (fsAt cwd) cwd maxDepth useIgnorePatterns batchSize) with
    | (out1, ck, stopped) =>
      if stopped then out1
      else
        out1 ++ (relayPlain cO ck
          (scanDirectoriesAsyncCtxExcluding c2 (fsAt "/") "/" maxDepth useIgnorePatterns batchSize cwd)).1

namespace Fuzzy

/-- `fuzzy.Match` of the external github.com/sahilm/fuzzy library. -/
structure Match where
  Str : String
  Index : Int
  Score : Int
  MatchedIndexes : List Int
deriving DecidableEq

end Fuzzy

/-- `fuzzyMatch` of matcher.go; the external `fuzzy.Find` is an opaque
parameter (the spec treats the ranking algorithm as an external pure
function). -/
def fuzzyMatch (find : String → List String → List Fuzzy.Match)
    (query : String) (directories : List String) : List Fuzzy.Match :=
  if query = "" then
    directories.enum.map (fun p => ⟨p.2, (p.1 : Int), 100, []⟩)
  else find query directories

-- Sanity checks on concrete inputs (kernel-evaluated).
example : isWithinDepth "/home/user/level1/level2/level3" "/home/user" 2 = true := by decide
example : isWithinDepth "/home/user/level1/level2/level3" "/home/user" 1 = false := by decide
example : isWithinDepth "/home/user" "/home/user" 0 = true := by decide
example : shouldIgnore "node_modules" = true := by decide
example : shouldIgnore "src" = false := by decide

example :
    scanDirectories
      (some (.dir "r" false (.cons (.dir "a" false (.cons (.dir "deep" false .nil) .nil))
        (.cons (.dir ".git" false .nil) (.cons (.file "x") .nil))))) "/r" 5 true =
      (["/r/a", "/r/a/deep"], none) := by decide

example : scanDirectories none "/r" 5 true = ([], none) := by decide

example :
    scanDirectoriesAsync
      (some (.dir "r" false (.cons (.dir "a" false .nil) (.cons (.dir "b" false .nil) .nil))))
      "/r" 5 true 1 =
      [⟨["/r/a"], false, none⟩, ⟨["/r/b"], false, none⟩, ⟨[], true, none⟩] := by decide

/-! ### Separator counting in relative paths -/

theorem countSep_append (a b : String) : countSep (a ++ b) = countSep a + countSep b := by
  simp [countSep, String.data_append, List.countP_append]

theorem splitSepChars_no_sep : ∀ (cs : List Char), ∀ piece ∈ splitSepChars cs, '/' ∉ piece := by
  intro cs
  induction cs with
  | nil => intro piece hp; simp [splitSepChars] at hp; simp [hp]
  | cons c cs ih =>
    intro piece hp
    by_cases hc : c = '/'
    · simp [splitSepChars, hc] at hp
      rcases hp with h | h
      · simp [h]
      · exact ih piece h
    · simp only [splitSepChars, if_neg hc] at hp
      rcases hsplit : splitSepChars cs with _ | ⟨p, ps⟩
      · rw [hsplit] at hp
        simp at hp
        subst hp
        simp only [List.mem_singleton]
        exact Ne.symm hc
      · rw [hsplit] at hp
        simp at hp
        rcases hp with h | h
        · subst h
          have hmem : p ∈ splitSepChars cs := by rw [hsplit]; exact List.mem_cons_self _ _
          have hfree := ih p hmem
          simp only [List.mem_cons, not_or]
          exact ⟨Ne.symm hc, hfree⟩
        · exact ih piece (by rw [hsplit]; exact List.mem_cons_of_mem _ h)

theorem pathComponents_no_sep (s : String) : ∀ comp ∈ pathComponents s, countSep comp = 0 := by
  intro comp hc
  simp only [pathComponents, List.mem_filter, List.mem_map] at hc
  obtain ⟨⟨piece, hpiece, hmk⟩, _⟩ := hc
  have hfree := splitSepChars_no_sep s.data piece hpiece
  subst hmk
  simp only [countSep]
  rw [List.countP_eq_zero]
  intro ch hch
  simp only [beq_iff_eq]
  intro h
  subst h
  exact hfree hch

theorem goRel_no_sep {base targ : String} {rel : List String}
    (h : goRel base targ = some rel) : ∀ comp ∈ rel, countSep comp = 0 := by
  intro comp hc
  unfold goRel at h
  split at h
  · simp at h; subst h; simp at hc
  · split at h
    · exact absurd h (by simp)
    · dsimp only at h
      split at h
      · exact absurd h (by simp)
      · simp only [Option.some.injEq] at h
        subst h
        rcases List.mem_append.mp hc with h | h
        · have := List.eq_of_mem_replicate h
          subst this
          decide
        · exact pathComponents_no_sep targ comp (List.mem_of_mem_drop h)

theorem countSep_joinComponents :
    ∀ (rel : List String), (∀ comp ∈ rel, countSep comp = 0) →
      countSep (joinComponents rel) = rel.length - 1 := by
  intro rel
  induction rel with
  | nil => intro _; decide
  | cons c rest ih =>
    intro h
    rcases rest with _ | ⟨c2, rest2⟩
    · simpa [joinComponents] using h c (by simp)
    · have hc : countSep c = 0 := h c (by simp)
      have hrest : countSep (joinComponents (c2 :: rest2)) = (c2 :: rest2).length - 1 :=
        ih (fun x hx => h x (List.mem_cons_of_mem _ hx))
      show countSep (c ++ "/" ++ joinComponents (c2 :: rest2)) = _
      rw [countSep_append, countSep_append, hc, hrest]
      simp only [countSep, List.length_cons]
      norm_num
      omega

theorem isWithinDepth_iff (path root : String) (d : Int) :
    isWithinDepth path root d = true ↔
      ∃ rel, goRel root path = some rel ∧ ((rel.length - 1 : Nat) : Int) ≤ d := by
  unfold isWithinDepth
  rcases h : goRel root path with _ | rel
  · simp
  · have hcount := countSep_joinComponents rel (goRel_no_sep h)
    simp [hcount]

/-- C7 (amended): `isWithinDepth` computes depth as the number of path
separators in the relative path from root to path — one less than the
number of separator-delimited components when the relative path is
nonempty — and returns true iff that count is at most `maxDepth`; a failed
relative-path computation yields false; the concrete scenario evaluates to
true because the separator count of `level1/level2/level3` is 2 ≤ 2. -/
theorem c7_isWithinDepth_separator_count :
    (∀ (path root : String) (d : Int),
        isWithinDepth path root d = true ↔
          ∃ rel, goRel root path = some rel ∧ ((rel.length - 1 : Nat) : Int) ≤ d) ∧
    isWithinDepth "/home/user/level1/level2/level3" "/home/user" 2 = true ∧
    (∀ (path root : String) (d : Int),
        goRel root path = none → isWithinDepth path root d = false) := by
  refine ⟨isWithinDepth_iff, by decide, ?_⟩
  intro path root d h
  simp [isWithinDepth, h]

/-- C7 counterexample: at the claim's own concrete input the code returns
true, yet the claim's depth rule (the number of separator-delimited
components of the relative path, here 3) would demand false, since 3 > 2;
so `isWithinDepth` does not return true iff the component count is at most
`maxDepth`. -/
theorem c7_component_count_refuted :
    ¬ (isWithinDepth "/home/user/level1/level2/level3" "/home/user" 2 = true ↔
        ∃ rel, goRel "/home/user" "/home/user/level1/level2/level3" = some rel ∧
          (rel.length : Int) ≤ 2) := by
  intro h
  obtain ⟨rel, hrel, hle⟩ := h.mp (by decide)
  have h2 : goRel "/home/user" "/home/user/level1/level2/level3" =
      some ["level1", "level2", "level3"] := by decide
  rw [h2] at hrel
  have : rel = ["level1", "level2", "level3"] := by
    simpa using hrel.symm
  subst this
  simp at hle

/-- C7 witness: the amended characterization applied at concrete inputs
(one where the relative path exists, one where its computation fails). -/
theorem c7_witness :
    (isWithinDepth "/home/user/level1" "/home/user" 1 = true ↔
      ∃ rel, goRel "/home/user" "/home/user/level1" = some rel ∧
        ((rel.length - 1 : Nat) : Int) ≤ 1) ∧
    goRel "a" "/b" = none ∧ isWithinDepth "/b" "a" 3 = false :=
  ⟨c7_isWithinDepth_separator_count.1 "/home/user/level1" "/home/user" 1,
   by decide,
   c7_isWithinDepth_separator_count.2.2 "/b" "a" 3 (by decide)⟩

/-- C10: with the empty query, `fuzzyMatch` returns one match per input
directory, in input order, carrying the directory string, its index, score
100 and no matched indexes — regardless of the external find function. -/
theorem c10_fuzzyMatch_empty_query :
    ∀ (find : String → List String → List Fuzzy.Match) (directories : List String),
      (fuzzyMatch find "" directories).map Fuzzy.Match.Str = directories ∧
      (fuzzyMatch find "" directories).map Fuzzy.Match.Index =
        (List.range directories.length).map Int.ofNat ∧
      ∀ m ∈ fuzzyMatch find "" directories, m.Score = 100 ∧ m.MatchedIndexes = [] := by
  intro find directories
  have h : fuzzyMatch find "" directories =
      directories.enum.map (fun p => (⟨p.2, (p.1 : Int), 100, []⟩ : Fuzzy.Match)) := by
    simp [fuzzyMatch]
  refine ⟨?_, ?_, ?_⟩
  · rw [h]
    apply List.ext_getElem
    · simp
    · intro i h1 h2
      simp
  · rw [h]
    apply List.ext_getElem
    · simp
    · intro i h1 h2
      simp
  · rw [h]
    intro m hm
    simp only [List.mem_map] at hm
    obtain ⟨p, _, rfl⟩ := hm
    exact ⟨rfl, rfl⟩

/-- C10 witness: the theorem applied to a concrete directory list and a
concrete member of its result. -/
theorem c10_witness :
    (fuzzyMatch (fun _ _ => []) "" ["/a", "/b"]).map Fuzzy.Match.Str = ["/a", "/b"] ∧
    ((⟨"/b", 1, 100, []⟩ : Fuzzy.Match).Score = 100 ∧
      (⟨"/b", 1, 100, []⟩ : Fuzzy.Match).MatchedIndexes = []) :=
  ⟨(c10_fuzzyMatch_empty_query (fun _ _ => []) ["/a", "/b"]).1,
   (c10_fuzzyMatch_empty_query (fun _ _ => []) ["/a", "/b"]).2.2
     ⟨"/b", 1, 100, []⟩ (by decide)⟩

theorem scanFn_err_swallow (root : String) (maxDepth : Int) (ig : Bool)
    (dirs : List String) (path : String) (d : EntryInfo) (e : GoErr) :
    scanFn root maxDepth ig dirs path d (some e) = (dirs, .ok) := by
  simp [scanFn]

/-- C3 (amended): per-entry traversal errors are swallowed and traversal
continues — a directory whose `ReadDir` fails is walked exactly as if the
read had succeeded — and a failure to even begin walking from the scan
root is likewise swallowed, not propagated: `scanDirectories` returns
empty results with a nil error, and the streaming emitters deliver a
terminal done batch with a nil error (absent cancellation). -/
theorem c3_errors_swallowed :
    (∀ (root : String) (maxDepth : Int) (ig : Bool) (s : List String)
        (path n : String) (cs : EntryList),
        walkEntryG (scanFn root maxDepth ig) s path (.dir n true cs) =
          walkEntryG (scanFn root maxDepth ig) s path (.dir n false cs)) ∧
    (∀ (root : String) (maxDepth : Int) (ig : Bool),
        scanDirectories none root maxDepth ig = ([], none)) ∧
    (∀ (c : Ctx) (cfg : ScanConfig) (ex : Option String), c.cancelAt = none →
        emitCore c none cfg ex = [⟨[], true, none⟩]) := by
  refine ⟨?_, ?_, ?_⟩
  · intro root maxDepth ig s path n cs
    rcases h : scanFn root maxDepth ig s path ⟨n, true⟩ none with ⟨s1, r⟩
    cases r <;> simp [walkEntryG, h, scanFn_err_swallow]
  · intro root maxDepth ig
    rfl
  · intro c cfg ex h
    simp [emitCore, goWalkDir, emitFn, observe, poll, h, WalkRet.toErr, initState]

/-- C3 counterexample: at a concrete unreachable scan root the synchronous
walker returns a nil error (refuting "scanDirectories returns it as its
error result") and the streaming variant's terminal done batch carries a
nil error as well (refuting "reported as the error on the terminal done
batch"). -/
theorem c3_root_error_not_propagated :
    (scanDirectories none "/gone" 5 true).2 = none ∧
    scanDirectoriesAsync none "/gone" 5 true 50 = [⟨[], true, none⟩] := by
  decide

/-- C3 witness: the amended theorem applied at a concrete configuration
with a never-cancelled context. -/
theorem c3_witness :
    emitCore background none ⟨"/gone", 5, true, 50, 200⟩ none = [⟨[], true, none⟩] :=
  c3_errors_swallowed.2.2 background ⟨"/gone", 5, true, 50, 200⟩ none rfl

/-- C4: the code evaluated at an input on which phase 1 ends in an error
(cancellation observed from the first check on; every delivery `select`
still won by the send case): the orchestrator does stop without running
phase 2, but the batch it relays for the phase-1 error has `done = false`,
and the outward stream ends with no `done = true` batch at all —
contradicting the claim that the relayed error batch is terminal and that
every execution path ends in exactly one done batch. -/
theorem c4_phase1_error_relayed_not_terminal :
    scanTwoPhasesAsyncCtx (some "/w") (fun _ => none)
        ⟨some 0, fun _ => true⟩ background ⟨some 0, fun _ => true⟩ "/start" 5 true 50 =
      [⟨[], false, some GoErr.canceled⟩] ∧
    (scanTwoPhasesAsyncCtx (some "/w") (fun _ => none)
        ⟨some 0, fun _ => true⟩ background ⟨some 0, fun _ => true⟩ "/start" 5 true 50).countP
      (fun b => b.Done) = 0 := by
  decide

/-! ### A shared normal form for the per-entry decision of the walkers -/

/-- The three possible decisions of the scanners' shared guard chain. -/
inductive StepCase where
  | skip
  | prune
  | take
deriving DecidableEq

/-- The guard chain shared by `scanDirectories`, `scanWithConfigCtx` and
`scanWithConfigCtxExcluding`: swallow errors, ignore non-directories and
the root, prune excluded / too-deep / ignored subtrees, take the rest. -/
def stepCase (root : String) (maxDepth : Int) (ig : Bool) (exclude : Option String)
    (path : String) (d : EntryInfo) (err : Option GoErr) : StepCase :=
  if err.isSome then .skip
  else if !d.isDir then .skip
  else if path = root then .skip
  else if excludeCheck exclude path then .prune
  else if !(isWithinDepth path root maxDepth) then .prune
  else if ig && shouldIgnore d.name then .prune
  else .take

theorem scanFn_eq_stepCase (root : String) (maxDepth : Int) (ig : Bool)
    (dirs : List String) (path : String) (d : EntryInfo) (err : Option GoErr) :
    scanFn root maxDepth ig dirs path d err =
      match stepCase root maxDepth ig none path d err with
      | .skip => (dirs, .ok)
      | .prune => (dirs, .skipDir)
      | .take => (dirs ++ [path], .ok) := by
  unfold scanFn stepCase excludeCheck
  split_ifs <;> simp_all

theorem emitFn_eq_stepCase (c : Ctx) (cfg : ScanConfig) (exclude : Option String)
    (s : EmitState) (path : String) (d : EntryInfo) (err : Option GoErr) :
    emitFn c cfg exclude s path d err =
      if (observe c s).1 then ((observe c s).2, .fail .canceled)
      else if (observe c (observe c s).2).1 then
        ((observe c (observe c s).2).2, .fail .canceled)
      else
        match stepCase cfg.Root cfg.MaxDepth cfg.UseIgnorePatterns exclude path d err with
        | .skip => ((observe c (observe c s).2).2, .ok)
        | .prune => ((observe c (observe c s).2).2, .skipDir)
        | .take => emitTake c cfg (observe c (observe c s).2).2 path := by
  unfold emitFn stepCase
  dsimp only
  split_ifs <;> rfl

theorem poll_none {c : Ctx} (h : c.cancelAt = none) (n : Nat) : poll c n = false := by
  simp [poll, h]

theorem cancelAt_ne_none_of_poll {c : Ctx} {n : Nat} (h : poll c n = true) :
    c.cancelAt ≠ none := by
  intro hn
  rw [poll_none hn] at h
  cases h

theorem observe_fst (c : Ctx) (s : EmitState) : (observe c s).1 = poll c s.clock := rfl

theorem observe_snd (c : Ctx) (s : EmitState) :
    (observe c s).2 = { s with clock := s.clock + 1 } := rfl

/-- The facts about a path that the emit guard chain certifies when it
decides to take it: not the root, within depth, and not pruned by the
exclusion check. -/
def Guard (root : String) (maxDepth : Int) (exclude : Option String) (p : String) : Prop :=
  p ≠ root ∧ isWithinDepth p root maxDepth = true ∧ excludeCheck exclude p = false

theorem stepCase_take_guard {root : String} {maxDepth : Int} {ig : Bool}
    {exclude : Option String} {path : String} {d : EntryInfo} {err : Option GoErr}
    (h : stepCase root maxDepth ig exclude path d err = .take) :
    Guard root maxDepth exclude path := by
  unfold stepCase at h
  split_ifs at h with h1 h2 h3 h4 h5 h6
  simp_all [Guard]

/-- Full case analysis of `emitTake`: either no flush happened (buffer
still below threshold), or the flush `select` was lost to cancellation, or
the buffer was flushed as one non-final batch with the threshold doubled
(capped) exactly when the new running count exceeds 500 and the threshold
is still below the cap. -/
theorem emitTake_spec (c : Ctx) (cfg : ScanConfig) (s1 : EmitState) (path : String) :
    (emitTake c cfg s1 path =
        ((⟨s1.batch ++ [path], s1.currentBatchSize, s1.dirCount + 1, s1.sent, s1.clock⟩ :
          EmitState), .ok) ∧
      ((s1.batch.length : Int) + 1 < s1.currentBatchSize)) ∨
    (emitTake c cfg s1 path =
        ((⟨s1.batch ++ [path], s1.currentBatchSize, s1.dirCount + 1, s1.sent, s1.clock + 1⟩ :
          EmitState), .fail .canceled) ∧
      poll c s1.clock = true) ∨
    (∃ cbs : Int,
      emitTake c cfg s1 path =
        ((⟨[], cbs, s1.dirCount + 1,
            s1.sent ++ [⟨s1.batch ++ [path], false, none⟩], s1.clock + 1⟩ : EmitState), .ok) ∧
      cbs = (if s1.dirCount + 1 > 500 ∧ s1.currentBatchSize < cfg.MaxBatchSize
             then min (s1.currentBatchSize * 2) cfg.MaxBatchSize
             else s1.currentBatchSize) ∧
      (cbs = s1.currentBatchSize ∨
        (cbs = min (s1.currentBatchSize * 2) cfg.MaxBatchSize ∧
          s1.currentBatchSize < cfg.MaxBatchSize)) ∧
      (s1.batch.length : Int) + 1 ≥ s1.currentBatchSize) := by
  unfold emitTake
  dsimp only [observe]
  by_cases hf : ((s1.batch ++ [path]).length : Int) ≥ s1.currentBatchSize
  · rw [if_pos hf]
    by_cases hc : poll c s1.clock = true ∧ c.oracle s1.clock = false
    · rw [if_pos hc]
      exact Or.inr (Or.inl ⟨rfl, hc.1⟩)
    · rw [if_neg hc]
      by_cases hd : s1.dirCount + 1 > 500 ∧ s1.currentBatchSize < cfg.MaxBatchSize
      · rw [if_pos hd]
        exact Or.inr (Or.inr ⟨min (s1.currentBatchSize * 2) cfg.MaxBatchSize, rfl,
          (if_pos hd).symm, Or.inr ⟨rfl, hd.2⟩, by simpa using hf⟩)
      · rw [if_neg hd]
        exact Or.inr (Or.inr ⟨s1.currentBatchSize, rfl, (if_neg hd).symm, Or.inl rfl,
          by simpa using hf⟩)
  · rw [if_neg hf]
    refine Or.inl ⟨rfl, ?_⟩
    simp only [not_le] at hf
    simpa using hf

/-! ### A generic invariant-preservation lemma for the walk -/

section WalkInv

variable {σ : Type} (fn : σ → String → EntryInfo → Option GoErr → σ × WalkRet)
variable (Inv InvW : σ → Prop) (FailP : GoErr → Prop)

/-- The shape of a per-callback invariant step: on a failing return the
failure satisfies `FailP` and the state still satisfies the weak invariant
`InvW`; on a non-failing return the full invariant `Inv` is preserved. -/
def StepHyp : Prop :=
  ∀ s path d err, Inv s →
    (∀ er, (fn s path d err).2 = .fail er → FailP er ∧ InvW (fn s path d err).1) ∧
    ((∀ er, (fn s path d err).2 ≠ .fail er) → Inv (fn s path d err).1)

mutual

theorem walkEntry_inv (hstep : StepHyp fn Inv InvW FailP)
    (s : σ) (path : String) (e : Entry) (h : Inv s) :
    (∀ er, (walkEntryG fn s path e).2 = .fail er →
        FailP er ∧ InvW (walkEntryG fn s path e).1) ∧
    ((∀ er, (walkEntryG fn s path e).2 ≠ .fail er) → Inv (walkEntryG fn s path e).1) := by
  cases e with
  | file n =>
    have hs := hstep s path ⟨n, false⟩ none h
    simpa [walkEntryG] using hs
  | dir n readErr children =>
    rcases hfn : fn s path ⟨n, true⟩ none with ⟨s1, r1⟩
    have hs := hstep s path ⟨n, true⟩ none h
    rw [hfn] at hs
    cases r1 with
    | skipDir =>
      have h1 : Inv s1 := hs.2 (by simp)
      simp only [walkEntryG, hfn]
      exact ⟨by simp, fun _ => h1⟩
    | fail er =>
      have hf := hs.1 er rfl
      simp only [walkEntryG, hfn]
      refine ⟨?_, ?_⟩
      · intro er' h'
        injection h' with h''
        subst h''
        exact hf
      · intro hne
        exact absurd rfl (hne er)
    | ok =>
      have h1 : Inv s1 := hs.2 (by simp)
      cases readErr with
      | false =>
        simp only [walkEntryG, hfn, if_neg (by simp : ¬(false = true))]
        exact walkChildren_inv hstep s1 path children h1
      | true =>
        rcases hfn2 : fn s1 path ⟨n, true⟩ (some .readDirErr) with ⟨s2, r2⟩
        have hs2 := hstep s1 path ⟨n, true⟩ (some .readDirErr) h1
        rw [hfn2] at hs2
        cases r2 with
        | ok =>
          have h2 : Inv s2 := hs2.2 (by simp)
          simp only [walkEntryG, hfn, if_pos rfl, hfn2]
          exact walkChildren_inv hstep s2 path children h2
        | skipDir =>
          have h2 : Inv s2 := hs2.2 (by simp)
          simp only [walkEntryG, hfn, if_pos rfl, hfn2]
          exact ⟨by simp, fun _ => h2⟩
        | fail er =>
          have hf := hs2.1 er rfl
          simp only [walkEntryG, hfn, if_pos rfl, hfn2]
          refine ⟨?_, ?_⟩
          · intro er' h'
            injection h' with h''
            subst h''
            exact hf
          · intro hne
            exact absurd rfl (hne er)

theorem walkChildren_inv (hstep : StepHyp fn Inv InvW FailP)
    (s : σ) (parent : String) (l : EntryList) (h : Inv s) :
    (∀ er, (walkChildrenG fn s parent l).2 = .fail er →
        FailP er ∧ InvW (walkChildrenG fn s parent l).1) ∧
    ((∀ er, (walkChildrenG fn s parent l).2 ≠ .fail er) →
      Inv (walkChildrenG fn s parent l).1) := by
  cases l with
  | nil =>
    simp only [walkChildrenG]
    exact ⟨by simp, fun _ => h⟩
  | cons cEnt rest =>
    rcases hw : walkEntryG fn s (joinPath parent cEnt.name) cEnt with ⟨s', r⟩
    have hrec := walkEntry_inv hstep s (joinPath parent cEnt.name) cEnt h
    rw [hw] at hrec
    cases r with
    | ok =>
      have h' : Inv s' := hrec.2 (by simp)
      simp only [walkChildrenG, hw]
      exact walkChildren_inv hstep s' parent rest h'
    | skipDir =>
      have h' : Inv s' := hrec.2 (by simp)
      simp only [walkChildrenG, hw]
      exact ⟨by simp, fun _ => h'⟩
    | fail er =>
      have hf := hrec.1 er rfl
      simp only [walkChildrenG, hw]
      refine ⟨?_, ?_⟩
      · intro er' h'
        injection h' with h''
        subst h''
        exact hf
      · intro hne
        exact absurd rfl (hne er)

end

end WalkInv

/-! ### The basic stream invariant of the emitters -/

/-- What is true of every non-final batch the emitters send: not done, no
error, and every carried path passed the guard chain. -/
def GoodBatch (cfg : ScanConfig) (exclude : Option String) (b : DirBatch) : Prop :=
  b.Done = false ∧ b.Err = none ∧ ∀ p ∈ b.Directories, Guard cfg.Root cfg.MaxDepth exclude p

/-- Invariant of the emitter state: all sent batches are good and all
buffered paths passed the guard chain. -/
def BasicInv (cfg : ScanConfig) (exclude : Option String) (s : EmitState) : Prop :=
  (∀ b ∈ s.sent, GoodBatch cfg exclude b) ∧
  (∀ p ∈ s.batch, Guard cfg.Root cfg.MaxDepth exclude p)

/-- The only failure the emit callback can produce is `context.Canceled`,
and only when the context can be cancelled at all. -/
def CancelFail (c : Ctx) (er : GoErr) : Prop := er = .canceled ∧ c.cancelAt ≠ none

theorem emitFn_basic_step (c : Ctx) (cfg : ScanConfig) (exclude : Option String) :
    StepHyp (emitFn c cfg exclude) (BasicInv cfg exclude) (BasicInv cfg exclude)
      (CancelFail c) := by
  intro s path d err h
  rw [emitFn_eq_stepCase]
  by_cases h0 : (observe c s).1 = true
  · rw [if_pos h0]
    refine ⟨?_, ?_⟩
    · intro er h'
      injection h' with h''
      subst h''
      exact ⟨⟨rfl, cancelAt_ne_none_of_poll h0⟩, h⟩
    · intro hne
      exact absurd rfl (hne .canceled)
  · rw [if_neg h0]
    by_cases h1 : (observe c (observe c s).2).1 = true
    · rw [if_pos h1]
      refine ⟨?_, ?_⟩
      · intro er h'
        injection h' with h''
        subst h''
        exact ⟨⟨rfl, cancelAt_ne_none_of_poll h1⟩, h⟩
      · intro hne
        exact absurd rfl (hne .canceled)
    · rw [if_neg h1]
      rcases hsc : stepCase cfg.Root cfg.MaxDepth cfg.UseIgnorePatterns exclude path d err
        with _ | _ | _
      · simp only [hsc]
        exact ⟨by simp, fun _ => h⟩
      · simp only [hsc]
        exact ⟨by simp, fun _ => h⟩
      · simp only [hsc]
        have hg := stepCase_take_guard hsc
        rcases emitTake_spec c cfg ((observe c (observe c s).2).2) path with
          ⟨heq, _⟩ | ⟨heq, hpoll⟩ | ⟨cbs, heq, _, _, _⟩ <;> rw [heq]
        · refine ⟨by simp, fun _ => ⟨h.1, ?_⟩⟩
          intro p hp
          rcases List.mem_append.mp hp with hp | hp
          · exact h.2 p hp
          · rw [List.mem_singleton] at hp
            subst hp
            exact hg
        · refine ⟨?_, ?_⟩
          · intro er h'
            injection h' with h''
            subst h''
            refine ⟨⟨rfl, cancelAt_ne_none_of_poll hpoll⟩, h.1, ?_⟩
            intro p hp
            rcases List.mem_append.mp hp with hp | hp
            · exact h.2 p hp
            · rw [List.mem_singleton] at hp
              subst hp
              exact hg
          · intro hne
            exact absurd rfl (hne .canceled)
        · refine ⟨by simp, fun _ => ⟨?_, by simp⟩⟩
          intro b hb
          rcases List.mem_append.mp hb with hb | hb
          · exact h.1 b hb
          · rw [List.mem_singleton] at hb
            subst hb
            refine ⟨rfl, rfl, ?_⟩
            intro p hp
            rcases List.mem_append.mp hp with hp | hp
            · exact h.2 p hp
            · rw [List.mem_singleton] at hp
              subst hp
              exact hg

theorem initState_basic (cfg : ScanConfig) (exclude : Option String) :
    BasicInv cfg exclude (initState cfg) :=
  ⟨by simp [initState], by simp [initState]⟩

theorem goWalkDir_emit_inv (c : Ctx) (cfg : ScanConfig) (exclude : Option String)
    (root : String) (fs : Option Entry) :
    BasicInv cfg exclude (goWalkDir (emitFn c cfg exclude) (initState cfg) root fs).1 ∧
    ((goWalkDir (emitFn c cfg exclude) (initState cfg) root fs).2 = none ∨
      ((goWalkDir (emitFn c cfg exclude) (initState cfg) root fs).2 = some .canceled ∧
        c.cancelAt ≠ none)) := by
  cases fs with
  | none =>
    rcases hfn : emitFn c cfg exclude (initState cfg) root ⟨"", false⟩ (some .lstatErr)
      with ⟨s1, r1⟩
    have hs := emitFn_basic_step c cfg exclude (initState cfg) root ⟨"", false⟩
      (some .lstatErr) (initState_basic cfg exclude)
    rw [hfn] at hs
    simp only [goWalkDir, hfn]
    cases r1 with
    | ok => exact ⟨hs.2 (by simp), Or.inl rfl⟩
    | skipDir => exact ⟨hs.2 (by simp), Or.inl rfl⟩
    | fail er =>
      have hf := hs.1 er rfl
      refine ⟨hf.2, Or.inr ⟨?_, hf.1.2⟩⟩
      rw [hf.1.1]
      rfl
  | some e =>
    have hw := walkEntry_inv (emitFn c cfg exclude) (BasicInv cfg exclude)
      (BasicInv cfg exclude) (CancelFail c) (emitFn_basic_step c cfg exclude)
      (initState cfg) root e (initState_basic cfg exclude)
    rcases hr : walkEntryG (emitFn c cfg exclude) (initState cfg) root e with ⟨s1, r1⟩
    rw [hr] at hw
    simp only [goWalkDir, hr]
    cases r1 with
    | ok => exact ⟨hw.2 (by simp), Or.inl rfl⟩
    | skipDir => exact ⟨hw.2 (by simp), Or.inl rfl⟩
    | fail er =>
      have hf := hw.1 er rfl
      refine ⟨hf.2, Or.inr ⟨?_, hf.1.2⟩⟩
      rw [hf.1.1]
      rfl

/-- Cancellation observations are monotone: once the context reads as
cancelled at one observation index, it does so at every later one. -/
theorem poll_mono {c : Ctx} {m n : Nat} (hmn : m ≤ n) (h : poll c m = true) :
    poll c n = true := by
  cases hk : c.cancelAt with
  | none =>
    rw [poll_none hk] at h
    cases h
  | some k =>
    simp only [poll, hk, decide_eq_true_eq] at h ⊢
    omega

/-- What holds of the emitter state at the moment a callback fails: the
observation made one tick earlier saw the context as cancelled. -/
def FailWitness (c : Ctx) (s : EmitState) : Prop :=
  1 ≤ s.clock ∧ poll c (s.clock - 1) = true

theorem emitFn_pollfail_step (c : Ctx) (cfg : ScanConfig) (exclude : Option String) :
    StepHyp (emitFn c cfg exclude) (fun _ => True) (FailWitness c)
      (fun er => er = .canceled) := by
  intro s path d err _
  rw [emitFn_eq_stepCase]
  by_cases h0 : (observe c s).1 = true
  · rw [if_pos h0]
    refine ⟨?_, fun hne => absurd rfl (hne .canceled)⟩
    intro er h'
    injection h' with h''
    subst h''
    refine ⟨rfl, ?_⟩
    show 1 ≤ s.clock + 1 ∧ poll c (s.clock + 1 - 1) = true
    rw [observe_fst] at h0
    exact ⟨by omega, by simpa using h0⟩
  · rw [if_neg h0]
    by_cases h1 : (observe c (observe c s).2).1 = true
    · rw [if_pos h1]
      refine ⟨?_, fun hne => absurd rfl (hne .canceled)⟩
      intro er h'
      injection h' with h''
      subst h''
      refine ⟨rfl, ?_⟩
      show 1 ≤ s.clock + 1 + 1 ∧ poll c (s.clock + 1 + 1 - 1) = true
      rw [observe_fst] at h1
      exact ⟨by omega, by simpa [observe] using h1⟩
    · rw [if_neg h1]
      rcases hsc : stepCase cfg.Root cfg.MaxDepth cfg.UseIgnorePatterns exclude path d err
        with _ | _ | _
      · simp only [hsc]
        exact ⟨by simp, fun _ => trivial⟩
      · simp only [hsc]
        exact ⟨by simp, fun _ => trivial⟩
      · simp only [hsc]
        rcases emitTake_spec c cfg ((observe c (observe c s).2).2) path with
          ⟨heq, _⟩ | ⟨heq, hpoll⟩ | ⟨cbs, heq, _, _, _⟩ <;> rw [heq]
        · exact ⟨by simp, fun _ => trivial⟩
        · refine ⟨?_, fun hne => absurd rfl (hne .canceled)⟩
          intro er h'
          injection h' with h''
          subst h''
          refine ⟨rfl, ?_, ?_⟩
          · show 1 ≤ ((observe c (observe c s).2).2).clock + 1
            omega
          · show poll c (((observe c (observe c s).2).2).clock + 1 - 1) = true
            simpa using hpoll
        · exact ⟨by simp, fun _ => trivial⟩

/-- If the walk aborted with an error, cancellation had been observed by
(and hence reads true at) the walk's final observation clock. -/
theorem goWalkDir_fail_poll (c : Ctx) (cfg : ScanConfig) (exclude : Option String)
    (root : String) (fs : Option Entry) :
    (goWalkDir (emitFn c cfg exclude) (initState cfg) root fs).2 ≠ none →
    poll c (goWalkDir (emitFn c cfg exclude) (initState cfg) root fs).1.clock = true := by
  cases fs with
  | none =>
    rcases hfn : emitFn c cfg exclude (initState cfg) root ⟨"", false⟩ (some .lstatErr)
      with ⟨s1, r1⟩
    have hs := emitFn_pollfail_step c cfg exclude (initState cfg) root ⟨"", false⟩
      (some .lstatErr) trivial
    rw [hfn] at hs
    simp only [goWalkDir, hfn]
    cases r1 with
    | ok => intro h; exact absurd rfl h
    | skipDir => intro h; exact absurd rfl h
    | fail er =>
      intro _
      have hf := (hs.1 er rfl).2
      exact poll_mono (Nat.sub_le s1.clock 1) hf.2
  | some e =>
    have hw := walkEntry_inv (emitFn c cfg exclude) (fun _ => True) (FailWitness c)
      (fun er => er = .canceled) (emitFn_pollfail_step c cfg exclude)
      (initState cfg) root e trivial
    rcases hr : walkEntryG (emitFn c cfg exclude) (initState cfg) root e with ⟨s1, r1⟩
    rw [hr] at hw
    simp only [goWalkDir, hr]
    cases r1 with
    | ok => intro h; exact absurd rfl h
    | skipDir => intro h; exact absurd rfl h
    | fail er =>
      intro _
      have hf := (hw.1 er rfl).2
      exact poll_mono (Nat.sub_le s1.clock 1) hf.2

theorem emitCore_eq (c : Ctx) (fs : Option Entry) (cfg : ScanConfig)
    (exclude : Option String) :
    emitCore c fs cfg exclude =
      match goWalkDir (emitFn c cfg exclude) (initState cfg) cfg.Root fs with
      | (s1, werr) =>
        let err := if poll c s1.clock then some GoErr.canceled else werr
        if poll c (s1.clock + 1) = true ∧ c.oracle (s1.clock + 1) = false then s1.sent
        else if s1.batch.length > 0 ∨ err.isSome then s1.sent ++ [⟨s1.batch, true, err⟩]
        else s1.sent ++ [⟨[], true, err⟩] := by
  unfold emitCore
  rcases hw : goWalkDir (emitFn c cfg exclude) (initState cfg) cfg.Root fs with ⟨s1, werr⟩
  dsimp only [observe]
  split_ifs <;> rfl

theorem emitCore_shape (c : Ctx) (fs : Option Entry) (cfg : ScanConfig)
    (exclude : Option String) :
    ∃ pre tail, emitCore c fs cfg exclude = pre ++ tail ∧
      (∀ b ∈ pre, GoodBatch cfg exclude b) ∧
      ((tail = [] ∧ c.cancelAt ≠ none ∧ ∃ n, c.oracle n = false) ∨
        (∃ dirs e, tail = [⟨dirs, true, e⟩] ∧
          (∀ p ∈ dirs, Guard cfg.Root cfg.MaxDepth exclude p) ∧
          (e = none ∨ (e = some GoErr.canceled ∧ c.cancelAt ≠ none)))) := by
  rw [emitCore_eq]
  rcases hw : goWalkDir (emitFn c cfg exclude) (initState cfg) cfg.Root fs with ⟨s1, werr⟩
  have hinv := goWalkDir_emit_inv c cfg exclude cfg.Root fs
  rw [hw] at hinv
  dsimp only
  by_cases hsel : poll c (s1.clock + 1) = true ∧ c.oracle (s1.clock + 1) = false
  · rw [if_pos hsel]
    exact ⟨s1.sent, [], (List.append_nil _).symm, hinv.1.1,
      Or.inl ⟨rfl, cancelAt_ne_none_of_poll hsel.1, ⟨s1.clock + 1, hsel.2⟩⟩⟩
  · rw [if_neg hsel]
    have he : (if poll c s1.clock then some GoErr.canceled else werr) = none ∨
        ((if poll c s1.clock then some GoErr.canceled else werr) = some GoErr.canceled ∧
          c.cancelAt ≠ none) := by
      by_cases hpe : poll c s1.clock = true
      · rw [if_pos hpe]
        exact Or.inr ⟨rfl, cancelAt_ne_none_of_poll hpe⟩
      · rw [if_neg hpe]
        exact hinv.2
    by_cases hb : s1.batch.length > 0 ∨
        (if poll c s1.clock then some GoErr.canceled else werr).isSome
    · rw [if_pos hb]
      exact ⟨s1.sent, [⟨s1.batch, true, _⟩], rfl, hinv.1.1,
        Or.inr ⟨s1.batch, _, rfl, hinv.1.2, he⟩⟩
    · rw [if_neg hb]
      exact ⟨s1.sent, [⟨[], true, _⟩], rfl, hinv.1.1,
        Or.inr ⟨[], _, rfl, by simp, he⟩⟩

/-- The stream properties claimed for one emitter's output, as amended,
stated against the run's observation clock: `sClock` is the clock at the
end of the traversal, so the post-walk `ctx.Err()` read happens at index
`sClock` and the final-delivery `select` at index `sClock + 1` — the run's
last two observation points.  Non-final batches are not done and carry no
error; any error is Cancelled and rides on a done batch; whenever the
final-delivery `select` is not itself lost to `ctx.Done()`, the stream
ends with the done batch, which carries Cancelled exactly when
cancellation had been observed by the `ctx.Err()` read; and when the
context still reads uncancelled at the final `select` — cancellation
observations being monotone, this says no observation of the whole run saw
cancellation — there is exactly one done batch, last and error-free. -/
def ClaimC1Shape (c : Ctx) (sClock : Nat) (out : List DirBatch) : Prop :=
  (∀ b ∈ out.dropLast, b.Done = false ∧ b.Err = none) ∧
  (∀ b ∈ out, b.Err = none ∨ (b.Done = true ∧ b.Err = some GoErr.canceled)) ∧
  (¬(poll c (sClock + 1) = true ∧ c.oracle (sClock + 1) = false) →
    ∃ pre last, out = pre ++ [last] ∧ (∀ b ∈ pre, b.Done = false) ∧
      last.Done = true ∧ (last.Err = some GoErr.canceled ↔ poll c sClock = true)) ∧
  (poll c (sClock + 1) = false →
    ∃ pre last, out = pre ++ [last] ∧ (∀ b ∈ pre, b.Done = false) ∧
      last.Done = true ∧ last.Err = none)

theorem emitCore_streamOK (c : Ctx) (fs : Option Entry) (cfg : ScanConfig)
    (exclude : Option String) :
    ClaimC1Shape c (goWalkDir (emitFn c cfg exclude) (initState cfg) cfg.Root fs).1.clock
      (emitCore c fs cfg exclude) := by
  rw [emitCore_eq]
  rcases hw : goWalkDir (emitFn c cfg exclude) (initState cfg) cfg.Root fs with ⟨s1, werr⟩
  have hinv := goWalkDir_emit_inv c cfg exclude cfg.Root fs
  have hfp := goWalkDir_fail_poll c cfg exclude cfg.Root fs
  rw [hw] at hinv hfp
  dsimp only at hinv hfp ⊢
  unfold ClaimC1Shape
  set E := (if poll c s1.clock then some GoErr.canceled else werr) with hE
  have herrNC : E = none ∨ E = some GoErr.canceled := by
    by_cases hp : poll c s1.clock = true
    · exact Or.inr (by rw [hE, if_pos hp])
    · rw [hE, if_neg hp]
      rcases hinv.2 with h | h
      · exact Or.inl h
      · exact Or.inr h.1
  have herr2 : E = some GoErr.canceled ↔ poll c s1.clock = true := by
    constructor
    · intro he
      by_cases hp : poll c s1.clock = true
      · exact hp
      · rw [hE, if_neg hp] at he
        exact absurd (hfp (by rw [he]; simp)) hp
    · intro hp
      rw [hE, if_pos hp]
  refine ⟨?_, ?_, ?_, ?_⟩
  · intro b hb
    by_cases hsel : poll c (s1.clock + 1) = true ∧ c.oracle (s1.clock + 1) = false
    · rw [if_pos hsel] at hb
      have := hinv.1.1 b (List.dropLast_subset _ hb)
      exact ⟨this.1, this.2.1⟩
    · rw [if_neg hsel] at hb
      by_cases hbn : s1.batch.length > 0 ∨ E.isSome
      · rw [if_pos hbn, List.dropLast_concat] at hb
        have := hinv.1.1 b hb
        exact ⟨this.1, this.2.1⟩
      · rw [if_neg hbn, List.dropLast_concat] at hb
        have := hinv.1.1 b hb
        exact ⟨this.1, this.2.1⟩
  · intro b hb
    by_cases hsel : poll c (s1.clock + 1) = true ∧ c.oracle (s1.clock + 1) = false
    · rw [if_pos hsel] at hb
      exact Or.inl (hinv.1.1 b hb).2.1
    · rw [if_neg hsel] at hb
      by_cases hbn : s1.batch.length > 0 ∨ E.isSome
      · rw [if_pos hbn] at hb
        rcases List.mem_append.mp hb with hb | hb
        · exact Or.inl (hinv.1.1 b hb).2.1
        · rw [List.mem_singleton] at hb
          subst hb
          rcases herrNC with h | h
          · exact Or.inl h
          · exact Or.inr ⟨rfl, h⟩
      · rw [if_neg hbn] at hb
        rcases List.mem_append.mp hb with hb | hb
        · exact Or.inl (hinv.1.1 b hb).2.1
        · rw [List.mem_singleton] at hb
          subst hb
          rcases herrNC with h | h
          · exact Or.inl h
          · exact Or.inr ⟨rfl, h⟩
  · intro hsel
    rw [if_neg hsel]
    by_cases hbn : s1.batch.length > 0 ∨ E.isSome
    · rw [if_pos hbn]
      exact ⟨s1.sent, ⟨s1.batch, true, E⟩, rfl,
        fun b hb => (hinv.1.1 b hb).1, rfl, herr2⟩
    · rw [if_neg hbn]
      exact ⟨s1.sent, ⟨[], true, E⟩, rfl,
        fun b hb => (hinv.1.1 b hb).1, rfl, herr2⟩
  · intro hp1
    have hsel : ¬(poll c (s1.clock + 1) = true ∧ c.oracle (s1.clock + 1) = false) := by
      intro hcon
      rw [hp1] at hcon
      cases hcon.1
    have hps : poll c s1.clock = false := by
      by_contra hcon
      rw [Bool.not_eq_false] at hcon
      rw [poll_mono (Nat.le_succ s1.clock) hcon] at hp1
      cases hp1
    have hEnone : E = none := by
      rcases herrNC with h | h
      · exact h
      · rw [herr2.mp h] at hps
        cases hps
    rw [if_neg hsel]
    by_cases hbn : s1.batch.length > 0 ∨ E.isSome
    · rw [if_pos hbn]
      exact ⟨s1.sent, ⟨s1.batch, true, E⟩, rfl,
        fun b hb => (hinv.1.1 b hb).1, rfl, hEnone⟩
    · rw [if_neg hbn]
      exact ⟨s1.sent, ⟨[], true, E⟩, rfl,
        fun b hb => (hinv.1.1 b hb).1, rfl, hEnone⟩

/-- C1 (amended): for every request, context, and cancellation/select
behaviour, each streaming emitter produces a stream in which every
non-final batch has `done = false` and no error, and any error is
Cancelled and is carried only on a `done` batch.  Whenever the final
delivery `select` — the run's last observation point, at index one past
the walk's final clock — is not itself lost to `ctx.Done()`, the stream
ends with the `done` batch, and that batch carries Cancelled exactly when
cancellation had been observed by the post-walk `ctx.Err()` read; in
particular, when the context still reads uncancelled at the final
`select` (cancellation observations being monotone, no observation of the
run then saw cancellation), there is exactly one `done = true` batch, it
is the last value produced, and its error is nil.  Under cancellation, if
the final `select` is lost to `ctx.Done()`, the stream may legally end
with no `done` batch at all. -/
theorem c1_done_batch_invariant :
    ∀ (c : Ctx) (fs : Option Entry) (cfg : ScanConfig) (ex : String),
      ClaimC1Shape c
          (goWalkDir (emitFn c cfg none) (initState cfg) cfg.Root fs).1.clock
          (scanWithConfigCtx c fs cfg) ∧
      ClaimC1Shape c
          (goWalkDir (emitFn c cfg (some ex)) (initState cfg) cfg.Root fs).1.clock
          (scanWithConfigCtxExcluding c fs cfg ex) :=
  fun c fs cfg ex =>
    ⟨emitCore_streamOK c fs cfg none, emitCore_streamOK c fs cfg (some ex)⟩

/-- C1 counterexample: with cancellation observed from the very first
check and every `select` resolved in favour of `ctx.Done()` — a behaviour
Go's randomized `select` permits even with an attentive consumer — the
plain emitter's stream is empty: it contains no batch with `done = true`
at all, refuting "exactly one batch with done = true" and "Cancelled is
reported on this final batch rather than the stream ending silently". -/
theorem c1_cancelled_stream_without_done :
    scanWithConfigCtx ⟨some 0, fun _ => false⟩
        (some (.dir "r" false (.cons (.dir "a" false .nil) .nil)))
        ⟨"/r", 5, true, 50, 200⟩ = [] ∧
    ¬ ((scanWithConfigCtx ⟨some 0, fun _ => false⟩
        (some (.dir "r" false (.cons (.dir "a" false .nil) .nil)))
        ⟨"/r", 5, true, 50, 200⟩).countP (fun b => b.Done) = 1) := by
  decide

/-- C1 witness: the amended stream shape applied to concrete scans — a
background context discharging the "context reads uncancelled at the final
select" hypothesis (the done batch is then last and error-free), and a
context cancelled from the first observation whose selects all resolve to
the send, discharging the "final delivery select not lost" hypothesis (the
done batch then carries Cancelled, cancellation having been observed). -/
theorem c1_witness :
    (∃ pre last,
      scanWithConfigCtx background
          (some (.dir "r" false (.cons (.dir "a" false .nil) .nil)))
          ⟨"/r", 5, true, 50, 200⟩ = pre ++ [last] ∧
      (∀ b ∈ pre, b.Done = false) ∧ last.Done = true ∧ last.Err = none) ∧
    (∃ pre last,
      scanWithConfigCtxExcluding ⟨some 0, fun _ => true⟩
          (some (.dir "r" false (.cons (.dir "a" false .nil) .nil)))
          ⟨"/r", 5, true, 50, 200⟩ "/r/a" = pre ++ [last] ∧
      (∀ b ∈ pre, b.Done = false) ∧ last.Done = true ∧
      (last.Err = some GoErr.canceled ↔
        poll ⟨some 0, fun _ => true⟩
          (goWalkDir
            (emitFn ⟨some 0, fun _ => true⟩ ⟨"/r", 5, true, 50, 200⟩ (some "/r/a"))
            (initState ⟨"/r", 5, true, 50, 200⟩) "/r"
            (some (.dir "r" false (.cons (.dir "a" false .nil) .nil)))).1.clock =
          true)) :=
  ⟨((c1_done_batch_invariant background
      (some (.dir "r" false (.cons (.dir "a" false .nil) .nil)))
      ⟨"/r", 5, true, 50, 200⟩ "/r/a").1).2.2.2 rfl,
   ((c1_done_batch_invariant ⟨some 0, fun _ => true⟩
      (some (.dir "r" false (.cons (.dir "a" false .nil) .nil)))
      ⟨"/r", 5, true, 50, 200⟩ "/r/a").2).2.2.1 (by decide)⟩

theorem excludeCheck_false {ex p : String} (hne : ex ≠ "")
    (h : excludeCheck (some ex) p = false) :
    ¬(p = ex ∨ goHasPrefix p (ex ++ "/") = true) := by
  simp only [excludeCheck, Bool.and_eq_false_iff, Bool.not_eq_false',
    Bool.or_eq_false_iff, beq_iff_eq, beq_eq_false_iff_ne] at h
  rcases h with h | h
  · exact absurd h hne
  · rintro (h' | h')
    · exact h.1 h'
    · rw [h.2] at h'
      cases h'

/-- C5: every path emitted (in any batch, final included) by the
exclusion-aware emitter with a nonempty `excludePath` is neither equal to
`excludePath` nor a separator-delimited descendant of it (the code's
`excludePath + "/"` prefix test).  The statement quantifies over every
configuration, so the pruning is independent of the ignore-pattern
setting; in particular, with `excludePath = cwd`, phase 2 of the two-phase
orchestrator emits no path from the set {cwd and its descendants} that
phase 1 covers. -/
theorem c5_excluded_subtree_pruned :
    ∀ (c : Ctx) (fs : Option Entry) (cfg : ScanConfig) (ex : String), ex ≠ "" →
      ∀ b ∈ scanWithConfigCtxExcluding c fs cfg ex, ∀ p ∈ b.Directories,
        ¬(p = ex ∨ goHasPrefix p (ex ++ "/") = true) := by
  intro c fs cfg ex hne b hb p hp
  obtain ⟨pre, tail, heq, hpre, htail⟩ := emitCore_shape c fs cfg (some ex)
  rw [scanWithConfigCtxExcluding, heq] at hb
  have hg : Guard cfg.Root cfg.MaxDepth (some ex) p := by
    rcases List.mem_append.mp hb with hb | hb
    · exact (hpre b hb).2.2 p hp
    · rcases htail with ⟨ht, _⟩ | ⟨dirs, e, ht, hgd, _⟩
      · subst ht
        cases hb
      · subst ht
        rw [List.mem_singleton] at hb
        subst hb
        exact hgd p hp
  exact excludeCheck_false hne hg.2.2

/-- C5 witness: scanning from `/` while excluding `/w`, the emitted path
`/x` is neither the excluded path nor under it. -/
theorem c5_witness :
    ¬(("/x" : String) = "/w" ∨ goHasPrefix "/x" ("/w" ++ "/") = true) :=
  c5_excluded_subtree_pruned background
    (some (.dir "root" false (.cons (.dir "w" false (.cons (.dir "deep" false .nil) .nil))
      (.cons (.dir "x" false .nil) .nil))))
    ⟨"/", 5, true, 50, 200⟩ "/w" (by decide)
    ⟨["/x"], true, none⟩ (by decide) "/x" (by decide)

/-- The facts the synchronous walker's guard chain certifies for every
recorded path. -/
def GuardS (root : String) (maxDepth : Int) (p : String) : Prop :=
  p ≠ root ∧ isWithinDepth p root maxDepth = true

theorem scanFn_guard_step (root : String) (maxDepth : Int) (ig : Bool) :
    StepHyp (scanFn root maxDepth ig)
      (fun dirs => ∀ p ∈ dirs, GuardS root maxDepth p)
      (fun dirs => ∀ p ∈ dirs, GuardS root maxDepth p)
      (fun _ => False) := by
  intro dirs path d err h
  rw [scanFn_eq_stepCase]
  rcases hsc : stepCase root maxDepth ig none path d err with _ | _ | _
  · simp only [hsc]
    exact ⟨by simp, fun _ => h⟩
  · simp only [hsc]
    exact ⟨by simp, fun _ => h⟩
  · simp only [hsc]
    have hg := stepCase_take_guard hsc
    refine ⟨by simp, fun _ => ?_⟩
    intro p hp
    rcases List.mem_append.mp hp with hp | hp
    · exact h p hp
    · rw [List.mem_singleton] at hp
      subst hp
      exact ⟨hg.1, hg.2.1⟩

/-- C6: no path returned by the synchronous walker is the root, and every
returned path that has a relative path from the root has separator-count
depth at most `maxDepth` — for every tree, every root and every depth
bound (negative ones included, vacuously). -/
theorem c6_depth_bound_and_no_root :
    ∀ (fs : Option Entry) (root : String) (maxDepth : Int) (ig : Bool),
      ∀ p ∈ (scanDirectories fs root maxDepth ig).1,
        p ≠ root ∧ ∀ rel, goRel root p = some rel →
          (countSep (joinComponents rel) : Int) ≤ maxDepth := by
  intro fs root maxDepth ig p hp
  have hg : GuardS root maxDepth p := by
    cases fs with
    | none =>
      have hnil : (scanDirectories none root maxDepth ig).1 = [] := rfl
      rw [hnil] at hp
      cases hp
    | some e =>
      have hw := walkEntry_inv (scanFn root maxDepth ig)
        (fun dirs => ∀ q ∈ dirs, GuardS root maxDepth q)
        (fun dirs => ∀ q ∈ dirs, GuardS root maxDepth q)
        (fun _ => False) (scanFn_guard_step root maxDepth ig) [] root e (by simp)
      rcases hr : walkEntryG (scanFn root maxDepth ig) [] root e with ⟨s1, r1⟩
      rw [hr] at hw
      have h1 : (scanDirectories (some e) root maxDepth ig).1 = s1 := by
        simp only [scanDirectories, goWalkDir, hr]
      rw [h1] at hp
      cases r1 with
      | ok => exact hw.2 (by simp) p hp
      | skipDir => exact hw.2 (by simp) p hp
      | fail er => exact absurd (hw.1 er rfl).1 (by simp)
  refine ⟨hg.1, ?_⟩
  intro rel hrel
  have hd := hg.2
  unfold isWithinDepth at hd
  rw [hrel] at hd
  exact of_decide_eq_true hd

/-- C6 witness: the depth bound and root exclusion applied to a concrete
scan result and its concrete relative path. -/
theorem c6_witness :
    ("/r/a" : String) ≠ "/r" ∧
    (countSep (joinComponents ["a"]) : Int) ≤ 5 :=
  ⟨(c6_depth_bound_and_no_root
      (some (.dir "r" false (.cons (.dir "a" false .nil) .nil))) "/r" 5 true
      "/r/a" (by decide)).1,
   (c6_depth_bound_and_no_root
      (some (.dir "r" false (.cons (.dir "a" false .nil) .nil))) "/r" 5 true
      "/r/a" (by decide)).2 ["a"] (by decide)⟩

/-! ### The adaptive batch-size invariant -/

/-- Weak numeric invariant: the current threshold is the initial size
doubled some number of times and capped, and every sent batch's length is
such a value. -/
def NumInvW (cfg : ScanConfig) (s : EmitState) : Prop :=
  (∃ k : Nat, s.currentBatchSize = min (cfg.InitialBatchSize * 2 ^ k) cfg.MaxBatchSize) ∧
  (∀ b ∈ s.sent, ∃ k : Nat,
    (b.Directories.length : Int) = min (cfg.InitialBatchSize * 2 ^ k) cfg.MaxBatchSize)

/-- Full numeric invariant: additionally the buffer is strictly below the
current threshold (so a flush happens exactly at the threshold). -/
def NumInv (cfg : ScanConfig) (s : EmitState) : Prop :=
  NumInvW cfg s ∧ (s.batch.length : Int) < s.currentBatchSize

theorem thr_pos {cfg : ScanConfig} (h1 : 1 ≤ cfg.InitialBatchSize)
    (h2 : cfg.InitialBatchSize ≤ cfg.MaxBatchSize) (k : Nat) :
    1 ≤ min (cfg.InitialBatchSize * 2 ^ k) cfg.MaxBatchSize := by
  have h2k : (1 : Int) ≤ 2 ^ k := one_le_pow₀ (by norm_num)
  have hmul : (1 : Int) ≤ cfg.InitialBatchSize * 2 ^ k := by nlinarith
  exact le_min hmul (le_trans h1 h2)

theorem emitFn_num_step (c : Ctx) (cfg : ScanConfig) (exclude : Option String)
    (h1 : 1 ≤ cfg.InitialBatchSize) (h2 : cfg.InitialBatchSize ≤ cfg.MaxBatchSize) :
    StepHyp (emitFn c cfg exclude) (NumInv cfg) (NumInvW cfg) (fun _ => True) := by
  intro s path d err h
  rw [emitFn_eq_stepCase]
  by_cases hc0 : (observe c s).1 = true
  · rw [if_pos hc0]
    exact ⟨fun er h' => ⟨trivial, h.1⟩, fun hne => absurd rfl (hne .canceled)⟩
  · rw [if_neg hc0]
    by_cases hc1 : (observe c (observe c s).2).1 = true
    · rw [if_pos hc1]
      exact ⟨fun er h' => ⟨trivial, h.1⟩, fun hne => absurd rfl (hne .canceled)⟩
    · rw [if_neg hc1]
      rcases hsc : stepCase cfg.Root cfg.MaxDepth cfg.UseIgnorePatterns exclude path d err
        with _ | _ | _
      · simp only [hsc]
        exact ⟨by simp, fun _ => h⟩
      · simp only [hsc]
        exact ⟨by simp, fun _ => h⟩
      · simp only [hsc]
        have hpc : (observe c (observe c s).2).2.currentBatchSize = s.currentBatchSize := rfl
        have hpb : (observe c (observe c s).2).2.batch = s.batch := rfl
        have hps : (observe c (observe c s).2).2.sent = s.sent := rfl
        rcases emitTake_spec c cfg ((observe c (observe c s).2).2) path with
          ⟨heq, hlt⟩ | ⟨heq, _⟩ | ⟨cbs, heq, _, hcbs, hge⟩ <;> rw [heq] <;>
          rw [hpc, hpb, hps] at *
        · refine ⟨by simp, fun _ => ⟨h.1, ?_⟩⟩
          show ((s.batch ++ [path]).length : Int) < s.currentBatchSize
          rw [List.length_append, List.length_singleton]
          push_cast
          omega
        · exact ⟨fun er h' => ⟨trivial, h.1⟩, fun hne => absurd rfl (hne .canceled)⟩
        · have hbatchlen : (((s.batch ++ [path]).length : Nat) : Int) =
              s.currentBatchSize := by
            rw [List.length_append, List.length_singleton]
            push_cast
            have hb := h.2
            omega
          obtain ⟨⟨k, hk⟩, hsent⟩ := h.1
          have hthr : ∃ k' : Nat,
              cbs = min (cfg.InitialBatchSize * 2 ^ k') cfg.MaxBatchSize := by
            rcases hcbs with hcbs | ⟨hcbs, hlt'⟩
            · exact ⟨k, by rw [hcbs, hk]⟩
            · refine ⟨k + 1, ?_⟩
              have hmin_eq : s.currentBatchSize = cfg.InitialBatchSize * 2 ^ k := by
                rcases min_cases (cfg.InitialBatchSize * 2 ^ k) cfg.MaxBatchSize with
                  ⟨hm, _⟩ | ⟨hm, hle⟩
                · rw [hk, hm]
                · rw [hk, hm] at hlt'
                  exact absurd hlt' (lt_irrefl _)
              rw [hcbs, hmin_eq, pow_succ, ← mul_assoc]
          refine ⟨by simp, fun _ => ⟨⟨hthr, ?_⟩, ?_⟩⟩
          · intro b hb
            rcases List.mem_append.mp hb with hb | hb
            · exact hsent b hb
            · rw [List.mem_singleton] at hb
              subst hb
              exact ⟨k, by rw [← hk]; exact hbatchlen⟩
          · show ((([] : List String).length : Nat) : Int) < cbs
            obtain ⟨k', hk'⟩ := hthr
            rw [hk']
            exact lt_of_lt_of_le (by norm_num) (thr_pos h1 h2 k')

theorem initState_num (cfg : ScanConfig) (h1 : 1 ≤ cfg.InitialBatchSize)
    (h2 : cfg.InitialBatchSize ≤ cfg.MaxBatchSize) : NumInv cfg (initState cfg) := by
  refine ⟨⟨⟨0, ?_⟩, by simp [initState]⟩, ?_⟩
  · show cfg.InitialBatchSize = min (cfg.InitialBatchSize * 2 ^ 0) cfg.MaxBatchSize
    rw [pow_zero, mul_one]
    exact (min_eq_left h2).symm
  · show ((([] : List String).length : Nat) : Int) < cfg.InitialBatchSize
    simp only [List.length_nil, Nat.cast_zero]
    omega

theorem goWalkDir_num (c : Ctx) (cfg : ScanConfig) (exclude : Option String)
    (root : String) (fs : Option Entry) (h1 : 1 ≤ cfg.InitialBatchSize)
    (h2 : cfg.InitialBatchSize ≤ cfg.MaxBatchSize) :
    NumInvW cfg (goWalkDir (emitFn c cfg exclude) (initState cfg) root fs).1 := by
  cases fs with
  | none =>
    rcases hfn : emitFn c cfg exclude (initState cfg) root ⟨"", false⟩ (some .lstatErr)
      with ⟨s1, r1⟩
    have hs := emitFn_num_step c cfg exclude h1 h2 (initState cfg) root ⟨"", false⟩
      (some .lstatErr) (initState_num cfg h1 h2)
    rw [hfn] at hs
    simp only [goWalkDir, hfn]
    cases r1 with
    | ok => exact (hs.2 (by simp)).1
    | skipDir => exact (hs.2 (by simp)).1
    | fail er => exact (hs.1 er rfl).2
  | some e =>
    have hw := walkEntry_inv (emitFn c cfg exclude) (NumInv cfg) (NumInvW cfg)
      (fun _ => True) (emitFn_num_step c cfg exclude h1 h2) (initState cfg) root e
      (initState_num cfg h1 h2)
    rcases hr : walkEntryG (emitFn c cfg exclude) (initState cfg) root e with ⟨s1, r1⟩
    rw [hr] at hw
    simp only [goWalkDir, hr]
    cases r1 with
    | ok => exact (hw.2 (by simp)).1
    | skipDir => exact (hw.2 (by simp)).1
    | fail er => exact (hw.1 er rfl).2

/-- The observable lengths of a stream's non-final batches, in order. -/
def nonFinalLens (out : List DirBatch) : List Int :=
  (out.filter (fun b => !b.Done)).map (fun b => (b.Directories.length : Int))

/-- The spec's adaptive-threshold law over a sequence of non-final batch
lengths: starting from threshold `t` and running directory count `cnt`,
each batch is flushed exactly at the current threshold, and after a flush
the threshold is doubled (capped at `maxB`) exactly when the running count
exceeds 500 and the threshold is still below the cap, and left unchanged
otherwise. -/
def batchLaw (maxB : Int) : Int → Int → List Int → Bool
  | _, _, [] => true
  | t, cnt, l :: rest =>
      l == t &&
        batchLaw maxB (if cnt + l > 500 ∧ t < maxB then min (t * 2) maxB else t)
          (cnt + l) rest

/-- Weak continuation invariant for the adaptive-threshold law: whatever
non-final batch lengths are still to come, if they obey the law from the
present threshold and flushed count (the running `dirCount` minus the
paths still buffered), then the lengths sent so far followed by them obey
the law from the initial threshold and count zero. -/
def LawInvW (cfg : ScanConfig) (s : EmitState) : Prop :=
  ∀ rest : List Int,
    batchLaw cfg.MaxBatchSize s.currentBatchSize
        (s.dirCount - (s.batch.length : Int)) rest = true →
    batchLaw cfg.MaxBatchSize cfg.InitialBatchSize 0
        ((s.sent.map fun b => (b.Directories.length : Int)) ++ rest) = true

/-- Full law invariant: additionally the threshold is at least one and the
buffer is strictly below it. -/
def LawInv (cfg : ScanConfig) (s : EmitState) : Prop :=
  LawInvW cfg s ∧ 1 ≤ s.currentBatchSize ∧ (s.batch.length : Int) < s.currentBatchSize

theorem LawInvW_congr {cfg : ScanConfig} {s s' : EmitState}
    (hc : s'.currentBatchSize = s.currentBatchSize)
    (hd : s'.dirCount - (s'.batch.length : Int) = s.dirCount - (s.batch.length : Int))
    (hs : s'.sent = s.sent) (h : LawInvW cfg s) : LawInvW cfg s' := by
  intro rest hrest
  rw [hc, hd] at hrest
  rw [hs]
  exact h rest hrest

theorem emitFn_law_step (c : Ctx) (cfg : ScanConfig) (exclude : Option String) :
    StepHyp (emitFn c cfg exclude) (LawInv cfg) (LawInvW cfg) (fun _ => True) := by
  intro s path d err h
  rw [emitFn_eq_stepCase]
  by_cases hc0 : (observe c s).1 = true
  · rw [if_pos hc0]
    exact ⟨fun er h' => ⟨trivial, h.1⟩, fun hne => absurd rfl (hne .canceled)⟩
  · rw [if_neg hc0]
    by_cases hc1 : (observe c (observe c s).2).1 = true
    · rw [if_pos hc1]
      exact ⟨fun er h' => ⟨trivial, h.1⟩, fun hne => absurd rfl (hne .canceled)⟩
    · rw [if_neg hc1]
      rcases hsc : stepCase cfg.Root cfg.MaxDepth cfg.UseIgnorePatterns exclude path d err
        with _ | _ | _
      · simp only [hsc]
        exact ⟨by simp, fun _ => h⟩
      · simp only [hsc]
        exact ⟨by simp, fun _ => h⟩
      · simp only [hsc]
        have hpc : (observe c (observe c s).2).2.currentBatchSize = s.currentBatchSize := rfl
        have hpb : (observe c (observe c s).2).2.batch = s.batch := rfl
        have hps : (observe c (observe c s).2).2.sent = s.sent := rfl
        have hpd : (observe c (observe c s).2).2.dirCount = s.dirCount := rfl
        rcases emitTake_spec c cfg ((observe c (observe c s).2).2) path with
          ⟨heq, hlt⟩ | ⟨heq, _⟩ | ⟨cbs, heq, hcif, _, hge⟩ <;> rw [heq] <;>
          rw [hpc, hpb, hps, hpd] at *
        · refine ⟨by simp, fun _ => ⟨?_, h.2.1, ?_⟩⟩
          · refine LawInvW_congr ?_ ?_ ?_ h.1
            · rfl
            · show s.dirCount + 1 - ((s.batch ++ [path]).length : Int) =
                s.dirCount - (s.batch.length : Int)
              rw [List.length_append, List.length_singleton]
              push_cast
              ring
            · rfl
          · show ((s.batch ++ [path]).length : Int) < s.currentBatchSize
            rw [List.length_append, List.length_singleton]
            push_cast
            omega
        · refine ⟨fun er h' => ⟨trivial, ?_⟩, fun hne => absurd rfl (hne .canceled)⟩
          refine LawInvW_congr ?_ ?_ ?_ h.1
          · rfl
          · show s.dirCount + 1 - ((s.batch ++ [path]).length : Int) =
              s.dirCount - (s.batch.length : Int)
            rw [List.length_append, List.length_singleton]
            push_cast
            ring
          · rfl
        · have hl : ((s.batch ++ [path]).length : Int) = s.currentBatchSize := by
            rw [List.length_append, List.length_singleton]
            push_cast
            have hb2 := h.2.2
            omega
          have h1c : 1 ≤ cbs := by
            rw [hcif]
            split_ifs with hgate
            · have ha := h.2.1
              have hb := hgate.2
              exact le_min (by omega) (by omega)
            · exact h.2.1
          refine ⟨by simp, fun _ => ⟨?_, h1c, ?_⟩⟩
          · intro rest hrest
            have hrest2 : batchLaw cfg.MaxBatchSize cbs (s.dirCount + 1) rest = true := by
              simpa using hrest
            have hstep : batchLaw cfg.MaxBatchSize s.currentBatchSize
                (s.dirCount - (s.batch.length : Int))
                (((s.batch ++ [path]).length : Int) :: rest) = true := by
              show (((s.batch ++ [path]).length : Int) == s.currentBatchSize &&
                batchLaw cfg.MaxBatchSize
                  (if (s.dirCount - (s.batch.length : Int)) +
                        ((s.batch ++ [path]).length : Int) > 500 ∧
                      s.currentBatchSize < cfg.MaxBatchSize
                   then min (s.currentBatchSize * 2) cfg.MaxBatchSize
                   else s.currentBatchSize)
                  ((s.dirCount - (s.batch.length : Int)) +
                    ((s.batch ++ [path]).length : Int)) rest) = true
              rw [Bool.and_eq_true]
              constructor
              · exact beq_iff_eq.mpr hl
              · have e2 : (s.dirCount - (s.batch.length : Int)) +
                    ((s.batch ++ [path]).length : Int) = s.dirCount + 1 := by
                  rw [List.length_append, List.length_singleton]
                  push_cast
                  ring
                rw [e2, ← hcif]
                exact hrest2
            have hres := h.1 (((s.batch ++ [path]).length : Int) :: rest) hstep
            simpa [List.map_append] using hres
          · show ((([] : List String).length : Int)) < cbs
            simp only [List.length_nil, Nat.cast_zero]
            omega

theorem initState_law (cfg : ScanConfig) (h1 : 1 ≤ cfg.InitialBatchSize) :
    LawInv cfg (initState cfg) := by
  refine ⟨?_, h1, ?_⟩
  · intro rest hrest
    simpa [initState] using hrest
  · show ((([] : List String).length : Int)) < cfg.InitialBatchSize
    simp only [List.length_nil, Nat.cast_zero]
    omega

theorem goWalkDir_law (c : Ctx) (cfg : ScanConfig) (exclude : Option String)
    (root : String) (fs : Option Entry) (h1 : 1 ≤ cfg.InitialBatchSize) :
    LawInvW cfg (goWalkDir (emitFn c cfg exclude) (initState cfg) root fs).1 := by
  cases fs with
  | none =>
    rcases hfn : emitFn c cfg exclude (initState cfg) root ⟨"", false⟩ (some .lstatErr)
      with ⟨s1, r1⟩
    have hs := emitFn_law_step c cfg exclude (initState cfg) root ⟨"", false⟩
      (some .lstatErr) (initState_law cfg h1)
    rw [hfn] at hs
    simp only [goWalkDir, hfn]
    cases r1 with
    | ok => exact (hs.2 (by simp)).1
    | skipDir => exact (hs.2 (by simp)).1
    | fail er => exact (hs.1 er rfl).2
  | some e =>
    have hw := walkEntry_inv (emitFn c cfg exclude) (LawInv cfg) (LawInvW cfg)
      (fun _ => True) (emitFn_law_step c cfg exclude) (initState cfg) root e
      (initState_law cfg h1)
    rcases hr : walkEntryG (emitFn c cfg exclude) (initState cfg) root e with ⟨s1, r1⟩
    rw [hr] at hw
    simp only [goWalkDir, hr]
    cases r1 with
    | ok => exact (hw.2 (by simp)).1
    | skipDir => exact (hw.2 (by simp)).1
    | fail er => exact (hw.1 er rfl).2

theorem emitCore_law (c : Ctx) (fs : Option Entry) (cfg : ScanConfig)
    (exclude : Option String) (h1 : 1 ≤ cfg.InitialBatchSize) :
    batchLaw cfg.MaxBatchSize cfg.InitialBatchSize 0
      (nonFinalLens (emitCore c fs cfg exclude)) = true := by
  rw [emitCore_eq]
  rcases hw : goWalkDir (emitFn c cfg exclude) (initState cfg) cfg.Root fs with ⟨s1, werr⟩
  have hlaw := goWalkDir_law c cfg exclude cfg.Root fs h1
  have hbasic := goWalkDir_emit_inv c cfg exclude cfg.Root fs
  rw [hw] at hlaw hbasic
  dsimp only at hlaw hbasic ⊢
  have hsent : nonFinalLens s1.sent =
      s1.sent.map (fun b => (b.Directories.length : Int)) := by
    unfold nonFinalLens
    congr 1
    rw [List.filter_eq_self]
    intro b hb
    rw [(hbasic.1.1 b hb).1]
    rfl
  have hres : batchLaw cfg.MaxBatchSize cfg.InitialBatchSize 0
      (s1.sent.map (fun b => (b.Directories.length : Int))) = true := by
    have hnil : batchLaw cfg.MaxBatchSize s1.currentBatchSize
        (s1.dirCount - (s1.batch.length : Int)) [] = true := rfl
    simpa using hlaw [] hnil
  by_cases hsel : poll c (s1.clock + 1) = true ∧ c.oracle (s1.clock + 1) = false
  · rw [if_pos hsel, hsent]
    exact hres
  · rw [if_neg hsel]
    by_cases hbn : s1.batch.length > 0 ∨
        (if poll c s1.clock then some GoErr.canceled else werr).isSome
    · rw [if_pos hbn]
      have h2 : nonFinalLens (s1.sent ++ [⟨s1.batch, true,
          if poll c s1.clock then some GoErr.canceled else werr⟩]) =
          nonFinalLens s1.sent := by
        unfold nonFinalLens
        rw [List.filter_append]
        simp
      rw [h2, hsent]
      exact hres
    · rw [if_neg hbn]
      have h2 : nonFinalLens (s1.sent ++ [⟨[], true,
          if poll c s1.clock then some GoErr.canceled else werr⟩]) =
          nonFinalLens s1.sent := by
        unfold nonFinalLens
        rw [List.filter_append]
        simp
      rw [h2, hsent]
      exact hres

/-- The batch-size law claimed for one emitter's output: the sequence of
non-final batch lengths obeys the adaptive-threshold law — the threshold
starts at the initial batch size, every non-final batch is flushed exactly
at the then-current threshold, and the threshold is doubled after a flush
exactly when the running directory count exceeds 500 and the cap is not
yet reached, the doubling being capped at `MaxBatchSize` — and moreover
every non-final batch length equals the initial size doubled some `k`
times and capped, hence never exceeds `MaxBatchSize`. -/
def ClaimC8Shape (cfg : ScanConfig) (out : List DirBatch) : Prop :=
  batchLaw cfg.MaxBatchSize cfg.InitialBatchSize 0 (nonFinalLens out) = true ∧
  ∀ b ∈ out, b.Done = false →
    ∃ k : Nat,
      (b.Directories.length : Int) = min (cfg.InitialBatchSize * 2 ^ k) cfg.MaxBatchSize ∧
      (b.Directories.length : Int) ≤ cfg.MaxBatchSize

theorem emitCore_num (c : Ctx) (fs : Option Entry) (cfg : ScanConfig)
    (exclude : Option String) (h1 : 1 ≤ cfg.InitialBatchSize)
    (h2 : cfg.InitialBatchSize ≤ cfg.MaxBatchSize) :
    ∀ b ∈ emitCore c fs cfg exclude, b.Done = false →
      ∃ k : Nat,
        (b.Directories.length : Int) = min (cfg.InitialBatchSize * 2 ^ k) cfg.MaxBatchSize ∧
        (b.Directories.length : Int) ≤ cfg.MaxBatchSize := by
  intro b hb hdone
  rw [emitCore_eq] at hb
  rcases hw : goWalkDir (emitFn c cfg exclude) (initState cfg) cfg.Root fs with ⟨s1, werr⟩
  have hnum := goWalkDir_num c cfg exclude cfg.Root fs h1 h2
  rw [hw] at hnum hb
  dsimp only at hb
  split_ifs at hb
  all_goals
    first
      | (rcases List.mem_append.mp hb with hb | hb
         · obtain ⟨k, hk⟩ := hnum.2 b hb
           exact ⟨k, hk, hk ▸ min_le_right _ _⟩
         · rw [List.mem_singleton] at hb
           subst hb
           exact absurd hdone (by simp))
      | (obtain ⟨k, hk⟩ := hnum.2 b hb
         exact ⟨k, hk, hk ▸ min_le_right _ _⟩)

/-- C8: for every valid request (positive initial batch size, at most the
cap, as the spec's data model requires), in both streaming emitters the
sequence of non-final batch lengths obeys the adaptive-threshold law: the
flush threshold starts at `InitialBatchSize`, every non-final batch is
flushed exactly when the buffer reaches the then-current threshold, and
after a flush the threshold is doubled exactly when the running directory
count exceeds 500 and the threshold is still below `MaxBatchSize`, the
doubled value being capped at `MaxBatchSize`; consequently every
non-final batch length equals `min(initial * 2^k, MaxBatchSize)` for some
number of doublings `k` and never exceeds `MaxBatchSize`. -/
theorem c8_adaptive_batch_threshold :
    ∀ (c : Ctx) (fs : Option Entry) (cfg : ScanConfig) (ex : String),
      1 ≤ cfg.InitialBatchSize → cfg.InitialBatchSize ≤ cfg.MaxBatchSize →
      ClaimC8Shape cfg (scanWithConfigCtx c fs cfg) ∧
      ClaimC8Shape cfg (scanWithConfigCtxExcluding c fs cfg ex) :=
  fun c fs cfg ex h1 h2 =>
    ⟨⟨emitCore_law c fs cfg none h1, emitCore_num c fs cfg none h1 h2⟩,
     ⟨emitCore_law c fs cfg (some ex) h1, emitCore_num c fs cfg (some ex) h1 h2⟩⟩

/-- C8 witness: a concrete scan with initial batch size 2 and cap 200
whose stream of non-final batch lengths obeys the adaptive-threshold law
from threshold 2 and count 0, and whose first batch (non-final, two
directories) obeys the doubling-and-cap length law. -/
theorem c8_witness :
    batchLaw 200 2 0 (nonFinalLens (scanWithConfigCtx background
        (some (.dir "r" false (.cons (.dir "a" false .nil)
          (.cons (.dir "b" false .nil) (.cons (.dir "c" false .nil) .nil)))))
        ⟨"/r", 5, true, 2, 200⟩)) = true ∧
    ∃ k : Nat,
      (((⟨["/r/a", "/r/b"], false, none⟩ : DirBatch)).Directories.length : Int) =
        min ((2 : Int) * 2 ^ k) 200 ∧
      (((⟨["/r/a", "/r/b"], false, none⟩ : DirBatch)).Directories.length : Int) ≤ 200 :=
  ⟨(c8_adaptive_batch_threshold background
      (some (.dir "r" false (.cons (.dir "a" false .nil)
        (.cons (.dir "b" false .nil) (.cons (.dir "c" false .nil) .nil)))))
      ⟨"/r", 5, true, 2, 200⟩ "/q" (by decide) (by decide)).1.1,
   (c8_adaptive_batch_threshold background
      (some (.dir "r" false (.cons (.dir "a" false .nil)
        (.cons (.dir "b" false .nil) (.cons (.dir "c" false .nil) .nil)))))
      ⟨"/r", 5, true, 2, 200⟩ "/q" (by decide) (by decide)).1.2
    ⟨["/r/a", "/r/b"], false, none⟩ (by decide) rfl⟩

/-! ### The streaming emitter refines the synchronous walker -/

/-- Concatenation of the directory sequences of a batch stream. -/
def flatDirs : List DirBatch → List String
  | [] => []
  | b :: rest => b.Directories ++ flatDirs rest

theorem flatDirs_append (xs ys : List DirBatch) :
    flatDirs (xs ++ ys) = flatDirs xs ++ flatDirs ys := by
  induction xs with
  | nil => rfl
  | cons b rest ih => simp [flatDirs, ih]

/-- Simulation relation between an emitter state and the synchronous
walker's accumulated list: the sync list is everything flushed so far plus
the current buffer. -/
def SyncRel (s : EmitState) (dirs : List String) : Prop :=
  dirs = flatDirs s.sent ++ s.batch

theorem emitFn_rel (c : Ctx) (cfg : ScanConfig) (hnc : c.cancelAt = none)
    (s : EmitState) (dirs : List String) (path : String) (d : EntryInfo)
    (err : Option GoErr) (h : SyncRel s dirs) :
    SyncRel (emitFn c cfg none s path d err).1
      (scanFn cfg.Root cfg.MaxDepth cfg.UseIgnorePatterns dirs path d err).1 ∧
    (emitFn c cfg none s path d err).2 =
      (scanFn cfg.Root cfg.MaxDepth cfg.UseIgnorePatterns dirs path d err).2 := by
  rw [emitFn_eq_stepCase, scanFn_eq_stepCase]
  have hp0 : ¬((observe c s).1 = true) := by
    rw [observe_fst, poll_none hnc]
    simp
  have hp1 : ¬((observe c (observe c s).2).1 = true) := by
    rw [observe_fst, poll_none hnc]
    simp
  rw [if_neg hp0, if_neg hp1]
  rcases hsc : stepCase cfg.Root cfg.MaxDepth cfg.UseIgnorePatterns none path d err
    with _ | _ | _ <;> simp only [hsc]
  · exact ⟨h, by simp⟩
  · exact ⟨h, by simp⟩
  · rcases emitTake_spec c cfg ((observe c (observe c s).2).2) path with
      ⟨heq, _⟩ | ⟨heq, hpoll⟩ | ⟨cbs, heq, _, _, _⟩ <;> rw [heq]
    · refine ⟨?_, rfl⟩
      show dirs ++ [path] = flatDirs s.sent ++ (s.batch ++ [path])
      rw [h, List.append_assoc]
    · rw [poll_none hnc] at hpoll
      cases hpoll
    · refine ⟨?_, rfl⟩
      show dirs ++ [path] =
        flatDirs (s.sent ++ [⟨s.batch ++ [path], false, none⟩]) ++ []
      rw [flatDirs_append, List.append_nil, h, List.append_assoc]
      simp [flatDirs]

mutual

theorem walkEntry_rel (c : Ctx) (cfg : ScanConfig) (hnc : c.cancelAt = none)
    (s : EmitState) (dirs : List String) (path : String) (e : Entry) (h : SyncRel s dirs) :
    SyncRel (walkEntryG (emitFn c cfg none) s path e).1
      (walkEntryG (scanFn cfg.Root cfg.MaxDepth cfg.UseIgnorePatterns) dirs path e).1 ∧
    (walkEntryG (emitFn c cfg none) s path e).2 =
      (walkEntryG (scanFn cfg.Root cfg.MaxDepth cfg.UseIgnorePatterns) dirs path e).2 := by
  cases e with
  | file n =>
    have hstep := emitFn_rel c cfg hnc s dirs path ⟨n, false⟩ none h
    simpa [walkEntryG] using hstep
  | dir n readErr children =>
    have hstep := emitFn_rel c cfg hnc s dirs path ⟨n, true⟩ none h
    rcases hfe : emitFn c cfg none s path ⟨n, true⟩ none with ⟨s1, r1⟩
    rcases hfs : scanFn cfg.Root cfg.MaxDepth cfg.UseIgnorePatterns dirs path
      ⟨n, true⟩ none with ⟨d1, r1s⟩
    rw [hfe, hfs] at hstep
    obtain ⟨hrel1, hret1⟩ := hstep
    dsimp only at hret1
    subst hret1
    cases r1 with
    | skipDir =>
      simp only [walkEntryG, hfe, hfs]
      exact ⟨hrel1, by simp⟩
    | fail er =>
      simp only [walkEntryG, hfe, hfs]
      exact ⟨hrel1, by simp⟩
    | ok =>
      cases readErr with
      | false =>
        simp only [walkEntryG, hfe, hfs, Bool.false_eq_true, if_false]
        exact walkChildren_rel c cfg hnc s1 d1 path children hrel1
      | true =>
        have hstep2 := emitFn_rel c cfg hnc s1 d1 path ⟨n, true⟩ (some .readDirErr) hrel1
        rcases hfe2 : emitFn c cfg none s1 path ⟨n, true⟩ (some .readDirErr) with ⟨s2, r2⟩
        rcases hfs2 : scanFn cfg.Root cfg.MaxDepth cfg.UseIgnorePatterns d1 path
          ⟨n, true⟩ (some .readDirErr) with ⟨d2, r2s⟩
        rw [hfe2, hfs2] at hstep2
        obtain ⟨hrel2, hret2⟩ := hstep2
        dsimp only at hret2
        subst hret2
        cases r2 with
        | ok =>
          simp only [walkEntryG, hfe, hfs, if_pos rfl, hfe2, hfs2]
          exact walkChildren_rel c cfg hnc s2 d2 path children hrel2
        | skipDir =>
          simp only [walkEntryG, hfe, hfs, if_pos rfl, hfe2, hfs2]
          exact ⟨hrel2, by simp⟩
        | fail er =>
          simp only [walkEntryG, hfe, hfs, if_pos rfl, hfe2, hfs2]
          exact ⟨hrel2, by simp⟩

theorem walkChildren_rel (c : Ctx) (cfg : ScanConfig) (hnc : c.cancelAt = none)
    (s : EmitState) (dirs : List String) (parent : String) (l : EntryList)
    (h : SyncRel s dirs) :
    SyncRel (walkChildrenG (emitFn c cfg none) s parent l).1
      (walkChildrenG (scanFn cfg.Root cfg.MaxDepth cfg.UseIgnorePatterns) dirs parent l).1 ∧
    (walkChildrenG (emitFn c cfg none) s parent l).2 =
      (walkChildrenG (scanFn cfg.Root cfg.MaxDepth cfg.UseIgnorePatterns) dirs parent l).2 := by
  cases l with
  | nil =>
    simp only [walkChildrenG]
    exact ⟨h, by simp⟩
  | cons cEnt rest =>
    have hrec := walkEntry_rel c cfg hnc s dirs (joinPath parent cEnt.name) cEnt h
    rcases he : walkEntryG (emitFn c cfg none) s (joinPath parent cEnt.name) cEnt
      with ⟨s1, r⟩
    rcases hs1 : walkEntryG (scanFn cfg.Root cfg.MaxDepth cfg.UseIgnorePatterns) dirs
      (joinPath parent cEnt.name) cEnt with ⟨d1, rs⟩
    rw [he, hs1] at hrec
    obtain ⟨hrel1, hret1⟩ := hrec
    dsimp only at hret1
    subst hret1
    cases r with
    | ok =>
      simp only [walkChildrenG, he, hs1]
      exact walkChildren_rel c cfg hnc s1 d1 parent rest hrel1
    | skipDir =>
      simp only [walkChildrenG, he, hs1]
      exact ⟨hrel1, by simp⟩
    | fail er =>
      simp only [walkChildrenG, he, hs1]
      exact ⟨hrel1, by simp⟩

end

theorem goWalkDir_rel (c : Ctx) (cfg : ScanConfig) (hnc : c.cancelAt = none)
    (fs : Option Entry) :
    SyncRel (goWalkDir (emitFn c cfg none) (initState cfg) cfg.Root fs).1
      (goWalkDir (scanFn cfg.Root cfg.MaxDepth cfg.UseIgnorePatterns) [] cfg.Root fs).1 := by
  have hinit : SyncRel (initState cfg) [] := by simp [SyncRel, initState, flatDirs]
  cases fs with
  | none =>
    have hstep := emitFn_rel c cfg hnc (initState cfg) [] cfg.Root ⟨"", false⟩
      (some .lstatErr) hinit
    rcases hfe : emitFn c cfg none (initState cfg) cfg.Root ⟨"", false⟩ (some .lstatErr)
      with ⟨s1, r1⟩
    rcases hfs : scanFn cfg.Root cfg.MaxDepth cfg.UseIgnorePatterns [] cfg.Root
      ⟨"", false⟩ (some .lstatErr) with ⟨d1, rs⟩
    rw [hfe, hfs] at hstep
    simp only [goWalkDir, hfe, hfs]
    exact hstep.1
  | some e =>
    have hrec := walkEntry_rel c cfg hnc (initState cfg) [] cfg.Root e hinit
    rcases he : walkEntryG (emitFn c cfg none) (initState cfg) cfg.Root e with ⟨s1, r1⟩
    rcases hs1 : walkEntryG (scanFn cfg.Root cfg.MaxDepth cfg.UseIgnorePatterns) []
      cfg.Root e with ⟨d1, rs⟩
    rw [he, hs1] at hrec
    simp only [goWalkDir, he, hs1]
    exact hrec.1

theorem emitCore_flat_noCancel (c : Ctx) (hnc : c.cancelAt = none) (fs : Option Entry)
    (cfg : ScanConfig) :
    flatDirs (emitCore c fs cfg none) =
      flatDirs (goWalkDir (emitFn c cfg none) (initState cfg) cfg.Root fs).1.sent ++
        (goWalkDir (emitFn c cfg none) (initState cfg) cfg.Root fs).1.batch := by
  rw [emitCore_eq]
  rcases hw : goWalkDir (emitFn c cfg none) (initState cfg) cfg.Root fs with ⟨s1, werr⟩
  dsimp only
  rw [poll_none hnc, poll_none hnc]
  simp only [Bool.false_eq_true, false_and, if_false, ite_false]
  by_cases hb : s1.batch.length > 0 ∨ werr.isSome = true
  · rw [if_pos hb, flatDirs_append]
    simp [flatDirs]
  · rw [if_neg hb, flatDirs_append]
    simp only [not_or] at hb
    have hbe : s1.batch = [] := by
      rcases Nat.eq_zero_or_pos s1.batch.length with h0 | h0
      · exact List.length_eq_zero.mp h0
      · exact absurd h0 (by simpa using hb.1)
    simp [flatDirs, hbe]

/-- C2: for every tree, root, depth, ignore setting and batch size, the
concatenation of the `Directories` fields over all batches produced by
`scanDirectoriesAsync` (a background, never-cancelled context) is exactly
the list returned by the synchronous `scanDirectories` — same paths, same
order, so batching neither loses nor duplicates any entry. -/
theorem c2_async_union_equals_sync :
    ∀ (fs : Option Entry) (root : String) (maxDepth : Int) (ig : Bool) (batchSize : Int),
      flatDirs (scanDirectoriesAsync fs root maxDepth ig batchSize) =
        (scanDirectories fs root maxDepth ig).1 := by
  intro fs root maxDepth ig batchSize
  show flatDirs (emitCore background fs ⟨root, maxDepth, ig, batchSize, 200⟩ none) = _
  rw [emitCore_flat_noCancel background rfl fs ⟨root, maxDepth, ig, batchSize, 200⟩]
  have hrel := goWalkDir_rel background ⟨root, maxDepth, ig, batchSize, 200⟩ rfl fs
  have hsync : (scanDirectories fs root maxDepth ig).1 =
      (goWalkDir (scanFn root maxDepth ig) [] root fs).1 := rfl
  rw [hsync]
  exact hrel.symm

theorem relayPhase1_shape (c : Ctx) :
    ∀ (clock : Nat) (bs : List DirBatch), ∀ b ∈ (relayPhase1 c clock bs).1,
      ∃ b' ∈ bs, b = ⟨b'.Directories, false, b'.Err⟩ := by
  intro clock bs
  induction bs generalizing clock with
  | nil =>
    intro b hb
    simp [relayPhase1] at hb
  | cons b0 rest ih =>
    intro b hb
    simp only [relayPhase1] at hb
    by_cases hstop : poll c clock = true ∧ c.oracle clock = false
    · rw [if_pos hstop] at hb
      cases hb
    · rw [if_neg hstop] at hb
      by_cases herr : b0.Err.isSome = true
      · rw [if_pos herr] at hb
        rw [List.mem_singleton] at hb
        subst hb
        exact ⟨b0, List.mem_cons_self _ _, rfl⟩
      · rw [if_neg herr] at hb
        rcases hr : relayPhase1 c (clock + 1) rest with ⟨out, ck, st⟩
        rw [hr] at hb
        rcases List.mem_cons.mp hb with hb | hb
        · subst hb
          exact ⟨b0, List.mem_cons_self _ _, rfl⟩
        · obtain ⟨b', hb', heq⟩ := ih (clock + 1) b (by rw [hr]; exact hb)
          exact ⟨b', List.mem_cons_of_mem _ hb', heq⟩

/-- C9: every batch the two-phase orchestrator relays during phase 1
corresponds to an inner phase-1 batch whose directory sequence and error
it carries unchanged, while its done flag is overridden to false. -/
theorem c9_phase1_relay_frame :
    ∀ (cO c1 : Ctx) (fsAt : String → Option Entry) (cwd : String) (maxDepth : Int)
      (ig : Bool) (batchSize : Int),
      ∀ b ∈ (relayPhase1 cO 0
          (scanDirectoriesAsyncCtx c1 (fsAt cwd) cwd maxDepth ig batchSize)).1,
        ∃ b' ∈ scanDirectoriesAsyncCtx c1 (fsAt cwd) cwd maxDepth ig batchSize,
          b.Directories = b'.Directories ∧ b.Done = false ∧ b.Err = b'.Err := by
  intro cO c1 fsAt cwd maxDepth ig batchSize b hb
  obtain ⟨b', hb', heq⟩ := relayPhase1_shape cO 0
    (scanDirectoriesAsyncCtx c1 (fsAt cwd) cwd maxDepth ig batchSize) b hb
  subst heq
  exact ⟨b', hb', rfl, rfl, rfl⟩

/-- C9 witness: the frame property applied to a concrete phase-1 stream
and one concrete relayed batch. -/
theorem c9_witness :
    ∃ b' ∈ scanDirectoriesAsyncCtx background
        ((fun _ => some (.dir "w" false (.cons (.dir "a" false .nil) .nil))) "/w")
        "/w" 5 true 50,
      (⟨["/w/a"], false, none⟩ : DirBatch).Directories = b'.Directories ∧
      (⟨["/w/a"], false, none⟩ : DirBatch).Done = false ∧
      (⟨["/w/a"], false, none⟩ : DirBatch).Err = b'.Err :=
  c9_phase1_relay_frame background background
    (fun _ => some (.dir "w" false (.cons (.dir "a" false .nil) .nil))) "/w" 5 true 50
    ⟨["/w/a"], false, none⟩ (by decide)
